import Mathlib

set_option maxRecDepth 100000

/-!
Verification development for the Hamm-Algorithm frequent itemset miner.

The repository contains two variants of the miner:
an implementation in src/Hamm.cpp (comma separated input, no linear-path
shortcut) and an implementation in src/unnamed/part_001 (whitespace separated
input, with the linear-path shortcut hamm_search_optimized).  Both share the
same tree data structure (struct Node with item, freq, parent, children,
hlink) and the same conditional projection logic.

Modelling conventions used throughout this file:

* Items are natural numbers, as in the source (int identifiers, assumed
  non-negative by the spec data model).
* The child list of a C++ Node, a vector of (item, Node pointer) pairs, is
  modelled in first-child next-sibling form by the inductive type Forest.
  A Forest value is a sibling list of nodes; each node carries its item, its
  accumulated count and its own child Forest.  Appending a child at the end
  of the vector corresponds to appending at the end of the sibling chain.
* The node-link chain of a header (next, tail, hlink) threads through every
  node holding a given item.  The model recovers that set of nodes by the
  traversal collect, which returns for every node holding the item the list
  of its ancestor items, nearest ancestor first, together with the node
  count, exactly the data the C++ loops read through the chain.  The chain
  visits nodes in creation order while collect visits them in depth first
  order; only the list order differs, and no counted or emitted quantity in
  the program depends on that order (headers are re-sorted, counts are sums,
  and the claims below are about emitted pairs, not their order).
* The fixed 1000 element arrays of the source, headers, condCounts and
  headerMap, are modelled by restricting the corresponding index domain to
  numbers below 1000.  Indexing these arrays with a larger item is undefined
  behaviour in C++; following the description of the observed behaviour in
  section 9 of the spec, the model treats such an item as silently dropped
  from the structure.  All positive theorems below assume items below 1000.
* std::sort with the comparators of the source is modelled by insertionSort
  with the corresponding total relation.  Every comparator used by the
  source is antisymmetric on the values it sorts (ties are only possible
  between structurally equal elements), so the sorted result is the unique
  sorted permutation and the choice of sorting algorithm is irrelevant.
* The output file is modelled as the list of emitted (sorted itemset,
  absolute support) pairs in emission order.  write_output prints the
  pattern sorted ascending; Hamm.cpp prints the support as a ratio rounded
  to four decimals and part_001 prints the absolute count.  The claims all
  speak about the support value, which is the count in both cases.
* The recursion of FP_Growth is modelled with explicit fuel, one unit per
  recursion depth; the value none means the computation did not finish
  within the given depth.  The C++ recursion has no such bound, so a run
  that returns none for every fuel is a non-terminating run of the source.
-/

namespace Hamm

/-- Weighted path database: a list of (item sequence, multiplicity) pairs. -/
abbrev WDB := List (List ℕ × ℕ)

/-- Header table entry: struct Header of the source, without the chain
pointers (the chain is recovered from the tree by collect). -/
structure Hdr where
  item : ℕ
  freq : ℕ
deriving DecidableEq, Repr

/-- FP-tree forest in first-child next-sibling form.  A value models the
children vector of one C++ Node: nil is the empty vector, and
node i f ch sib models an entry for a Node with item i, count f and
children ch, followed by the remaining entries sib. -/
inductive Forest : Type where
  | nil : Forest
  | node (item : ℕ) (freq : ℕ) (children : Forest) (sib : Forest) : Forest
deriving DecidableEq, Repr

/-- Fresh chain of nodes for the tail of an inserted path, as created by the
else branch of the insertion loop: each new node has the given count and a
single child holding the rest of the path. -/
def mkChain (i : ℕ) (rest : List ℕ) (c : ℕ) : Forest :=
  match rest with
  | [] => .node i c .nil .nil
  | j :: rest2 => .node i c (mkChain j rest2 c) .nil

/-- Model of get_child returning whether some child holds the item. -/
def hasItem (i : ℕ) : Forest → Bool
  | .nil => false
  | .node j _ _ sib => j == i || hasItem i sib

/-- Update the first node holding item i: add c to its count and apply f to
its children.  Mirrors the then branch of the insertion loop, which mutates
the node found by get_child. -/
def updChild (i c : ℕ) (f : Forest → Forest) : Forest → Forest
  | .nil => .nil
  | .node j g ch sib =>
      if j = i then .node j (g + c) (f ch) sib
      else .node j g ch (updChild i c f sib)

/-- Append a node at the end of a sibling list; mirrors add_child, which
push_backs at the end of the children vector. -/
def appendChild (t : Forest) : Forest → Forest
  | .nil => t
  | .node j g ch sib => .node j g ch (appendChild t sib)

/-- Insertion of one item sequence with multiplicity c, mirroring the walk
shared by the initial tree build of Hamm.cpp main and construct_tree of
part_001: at each step, if the current node has a child for the next item,
add c to that child and descend, otherwise create a fresh chain. -/
def insertPath (c : ℕ) : List ℕ → Forest → Forest
  | [], cs => cs
  | i :: rest, cs =>
      if hasItem i cs then updChild i c (insertPath c rest) cs
      else appendChild (mkChain i rest c) cs

/-- All nodes holding item x, as (ancestor item list, node count) pairs with
the nearest ancestor first, the data the C++ code reads by following the
node-link chain of the header for x and walking parent pointers up to the
root.  This is the ancestor path format of part_001 (Hamm.cpp additionally
reverses the path and prepends the item itself; see FP_Growth_basic). -/
def collect (x : ℕ) : Forest → List (List ℕ × ℕ)
  | .nil => []
  | .node i f ch sib =>
      ((if i = x then [(([] : List ℕ), f)] else []) ++
        (collect x ch).map (fun e => (e.1 ++ [i], e.2))) ++ collect x sib

/-- Header ordering used to sort conditional header tables in both variants
and the top level header table of part_001: ascending count, ties by
ascending item. -/
def hdrLe (a b : Hdr) : Prop := a.freq < b.freq ∨ (a.freq = b.freq ∧ a.item ≤ b.item)

/-- Path ordering used on each conditional path before insertion (and on
each transaction in Hamm.cpp main): descending count, ties by ascending
item. -/
def pathLe (a b : Hdr) : Prop := b.freq < a.freq ∨ (a.freq = b.freq ∧ a.item ≤ b.item)

/-- Top level header ordering of Hamm.cpp main: ascending count, ties by
descending item. -/
def topLe (a b : Hdr) : Prop := a.freq < b.freq ∨ (a.freq = b.freq ∧ b.item ≤ a.item)

/-- Ordering of the items of one transaction in Hamm.cpp main, by the global
counts: descending count, ties by ascending item. -/
def txLe (gf : ℕ → ℕ) (a b : ℕ) : Prop := gf b < gf a ∨ (gf a = gf b ∧ a ≤ b)

instance : DecidableRel hdrLe := fun a b => by unfold hdrLe; exact inferInstance
instance : DecidableRel pathLe := fun a b => by unfold pathLe; exact inferInstance
instance : DecidableRel topLe := fun a b => by unfold topLe; exact inferInstance
instance (gf : ℕ → ℕ) : DecidableRel (txLe gf) := fun a b => by
  unfold txLe; exact inferInstance

instance : IsTotal Hdr hdrLe := ⟨by intro a b; cases a; cases b; unfold hdrLe; dsimp only; omega⟩
instance : IsTrans Hdr hdrLe := ⟨by intro a b c; cases a; cases b; cases c; unfold hdrLe; dsimp only; omega⟩
instance : IsAntisymm Hdr hdrLe := ⟨by
  intro a b h1 h2; cases a; cases b; unfold hdrLe at h1 h2; dsimp only at h1 h2; simp only [Hdr.mk.injEq]; omega⟩

instance : IsTotal Hdr pathLe := ⟨by intro a b; cases a; cases b; unfold pathLe; dsimp only; omega⟩
instance : IsTrans Hdr pathLe := ⟨by intro a b c; cases a; cases b; cases c; unfold pathLe; dsimp only; omega⟩
instance : IsAntisymm Hdr pathLe := ⟨by
  intro a b h1 h2; cases a; cases b; unfold pathLe at h1 h2; dsimp only at h1 h2; simp only [Hdr.mk.injEq]; omega⟩

instance : IsTotal Hdr topLe := ⟨by intro a b; cases a; cases b; unfold topLe; dsimp only; omega⟩
instance : IsTrans Hdr topLe := ⟨by intro a b c; cases a; cases b; cases c; unfold topLe; dsimp only; omega⟩
instance : IsAntisymm Hdr topLe := ⟨by
  intro a b h1 h2; cases a; cases b; unfold topLe at h1 h2; dsimp only at h1 h2; simp only [Hdr.mk.injEq]; omega⟩

instance (gf : ℕ → ℕ) : IsTotal ℕ (txLe gf) := ⟨by intro a b; unfold txLe; omega⟩
instance (gf : ℕ → ℕ) : IsTrans ℕ (txLe gf) := ⟨by intro a b c; unfold txLe; omega⟩
instance (gf : ℕ → ℕ) : IsAntisymm ℕ (txLe gf) := ⟨by intro a b h1 h2; unfold txLe at h1 h2; omega⟩

/-- Model of write_output: the pattern is sorted ascending before printing,
and the pair carries the absolute support count. -/
def write_output (pat : List ℕ) (s : ℕ) : List ℕ × ℕ :=
  (List.insertionSort (· ≤ ·) pat, s)

/-- The headerMap array of size 1000: lookup of the header for an item,
defined only for items below the capacity (larger indices are out of bounds
in the source, see section 9 of the spec; the model drops them). -/
def headerMap (hs : List Hdr) (i : ℕ) : Option Hdr :=
  if i < 1000 then hs.find? (fun h => h.item == i) else none

/-- The per path filter and sort of construct_tree (and of the inlined copy
in Hamm.cpp FP_Growth): keep the items having a header, sort them by
descending count with ties by ascending item, and walk the resulting item
sequence. -/
def sortFilter (hs : List Hdr) (p : List ℕ) : List ℕ :=
  (List.insertionSort pathLe (p.filterMap (headerMap hs))).map Hdr.item

/-- construct_tree of part_001 (the same loop is inlined in Hamm.cpp
FP_Growth): insert every conditional path, filtered and sorted, into a fresh
tree. -/
def construct_tree (condPaths : WDB) (newHeaders : List Hdr) : Forest :=
  condPaths.foldl (fun cs pc => insertPath pc.2 (sortFilter newHeaders pc.1) cs) Forest.nil

/-- Sum of count times multiplicity of one ancestor item over all collected
nodes of one header: the value condCounts[a] accumulated by the projection
loop (the loop adds the node count once per occurrence of a on the walk to
the root, hence the multiplicity). -/
def condCountM (es : WDB) (a : ℕ) : ℕ :=
  (es.map (fun e => e.2 * e.1.count a)).sum

/-- The conditional header table before sorting: the loop over the 1000
slots of condCounts keeping the items whose accumulated count reaches
min_sup.  Ancestor items at or beyond 1000 are never counted (out of bounds
in the source, modelled as dropped). -/
def condHdrs (m : ℕ) (es : WDB) : List Hdr :=
  (List.range 1000).filterMap (fun a =>
    if m ≤ condCountM es a then some ⟨a, condCountM es a⟩ else none)

/-- Sequencing of per header results: concatenate, propagating a fuel
failure. -/
def seqCat : List (Option (List (List ℕ × ℕ))) → Option (List (List ℕ × ℕ))
  | [] => some []
  | none :: _ => none
  | some v :: os =>
      match seqCat os with
      | some rest => some (v ++ rest)
      | none => none

/-- The predicate is_single_node of part_001: the node-link chain of the
header contains exactly one tree node. -/
def is_single_node (cs : Forest) (x : ℕ) : Prop := (collect x cs).length = 1

/-- hamm_search_optimized of part_001: enumerate every subset of the
ancestor item list IL, emitting each resulting pattern with the unchanged
running sum.  The UL list of the source is passed along but never read
(sum_without_current equals current_sum), faithfully reproduced here. -/
def hamm_search_optimized (il : List ℕ) (ul : List ℕ) (currentSum : ℕ)
    (pat : List ℕ) (m : ℕ) : List (List ℕ × ℕ) :=
  match il with
  | [] => if pat = [] then [] else [write_output pat currentSum]
  | i :: rest =>
      (if m ≤ currentSum then hamm_search_optimized rest ul.tail currentSum pat m
       else []) ++
        hamm_search_optimized rest ul.tail currentSum (pat ++ [i]) m

/-- FP_Growth of src/Hamm.cpp: for every header emit the extended pattern
(write_output sorts the pattern in place, so the sorted pattern is also what
the recursion receives), build the conditional pattern base (paths are
recorded top down and include the item itself, which is filtered away
during construction), keep the items reaching min_sup, and recurse on the
conditional tree when the table is non empty. -/
def FP_Growth_basic : ℕ → Forest → List Hdr → List ℕ → ℕ → Option (List (List ℕ × ℕ))
  | 0, _, _, _, _ => none
  | fuel + 1, cs, hdrs, pref, m =>
      seqCat (hdrs.map (fun h =>
        let pat := List.insertionSort (· ≤ ·) (pref ++ [h.item])
        let es := collect h.item cs
        let condPaths : WDB := es.map (fun e => (e.1.reverse ++ [h.item], e.2))
        let newHeaders := condHdrs m es
        if newHeaders = [] then some [(pat, h.freq)]
        else
          let sorted := List.insertionSort hdrLe newHeaders
          (FP_Growth_basic fuel (construct_tree condPaths sorted) sorted pat m).map
            (fun sub => (pat, h.freq) :: sub)))

/-- FP_Growth of src/unnamed/part_001: as FP_Growth_basic, except that a
header whose node-link chain has exactly one node is handled by
hamm_search_optimized on the ancestor chain of that node instead of by
recursion, and conditional paths are recorded bottom up without the item,
empty paths being skipped. -/
def FP_Growth_opt : ℕ → Forest → List Hdr → List ℕ → ℕ → Option (List (List ℕ × ℕ))
  | 0, _, _, _, _ => none
  | fuel + 1, cs, hdrs, pref, m =>
      seqCat (hdrs.map (fun h =>
        let pat := pref ++ [h.item]
        let es := collect h.item cs
        match es with
        | [e] =>
            some (write_output pat h.freq ::
              hamm_search_optimized e.1 (e.1.map (fun _ => h.freq)) h.freq pat m)
        | _ =>
            let condPaths : WDB := es.filterMap (fun e => if e.1 = [] then none else some e)
            let newHeaders := condHdrs m es
            if newHeaders = [] then some [write_output pat h.freq]
            else
              let sorted := List.insertionSort hdrLe newHeaders
              (FP_Growth_opt fuel (construct_tree condPaths sorted) sorted pat m).map
                (fun sub => write_output pat h.freq :: sub)))

/-- Number of occurrences of item i over all input lines: the per occurrence
global count accumulated by both main loops while reading. -/
def globalFreq (lines : List (List ℕ)) (i : ℕ) : ℕ :=
  (lines.map (fun l => l.count i)).sum

/-- Support of an itemset in a transaction database: the number of
transactions containing every item of S.  This is the brute force reference
count of the spec. -/
def support (db : List (List ℕ)) (S : List ℕ) : ℕ :=
  db.countP (fun t => decide (∀ a ∈ S, a ∈ t))

/-- Weighted support in a weighted path database. -/
def wsupport (E : WDB) (S : List ℕ) : ℕ :=
  (E.map (fun pc => if ∀ a ∈ S, a ∈ pc.1 then pc.2 else 0)).sum

/-- remove_infrequent_items: drop headers below the threshold (null entries
of the Hamm.cpp header array are modelled by simply not being present). -/
def remove_infrequent_items (hs : List Hdr) (m : ℕ) : List Hdr :=
  hs.filter (fun h => m ≤ h.freq)

/-- Top level header table of Hamm.cpp main: one header per occurring item
below the array capacity, sorted ascending by count with ties by descending
item, infrequent entries removed. -/
def basicHeaders (lines : List (List ℕ)) (m : ℕ) : List Hdr :=
  remove_infrequent_items
    (List.insertionSort topLe ((List.range 1000).filterMap (fun i =>
      if 1 ≤ globalFreq lines i then some ⟨i, globalFreq lines i⟩ else none))) m

/-- Per transaction preparation of Hamm.cpp main: sort the items of the line
by descending global count with ties by ascending item, then remove the
infrequent ones (the model also drops items at or beyond the header array
capacity, which the source reads out of bounds). -/
def basicPrep (lines : List (List ℕ)) (m : ℕ) (l : List ℕ) : List ℕ :=
  (List.insertionSort (txLe (globalFreq lines)) l).filter
    (fun i => i < 1000 && decide (m ≤ globalFreq lines i))

/-- Initial tree of Hamm.cpp main: insert every prepared transaction with
count one. -/
def basicTree (lines : List (List ℕ)) (m : ℕ) : Forest :=
  (lines.map (basicPrep lines m)).foldl (fun cs p => insertPath 1 p cs) Forest.nil

/-- Full Hamm.cpp pipeline after reading: every line is one transaction
(a blank line yields an empty transaction and still counts), threshold m. -/
def basicRun (fuel : ℕ) (lines : List (List ℕ)) (m : ℕ) : Option (List (List ℕ × ℕ)) :=
  FP_Growth_basic fuel (basicTree lines m) (basicHeaders lines m) [] m

/-- Largest item identifier of the input, the max_id_found of part_001. -/
def maxId (txs : List (List ℕ)) : ℕ :=
  (txs.map (fun l => l.foldr max 0)).foldr max 0

/-- Transactions of part_001 main: blank lines are skipped. -/
def optTxs (lines : List (List ℕ)) : List (List ℕ) :=
  lines.filter (fun l => ¬ l = [])

/-- Top level header table of part_001 main: iterate the count map in
ascending item order, keep the items reaching the threshold, sort ascending
by count with ties by ascending item, then remove_infrequent_items (a no op
kept for fidelity). -/
def optHeaders (txs : List (List ℕ)) (m : ℕ) : List Hdr :=
  remove_infrequent_items
    (List.insertionSort hdrLe ((List.range (maxId txs + 1)).filterMap (fun i =>
      let f := globalFreq txs i
      if 1 ≤ f ∧ m ≤ f then some ⟨i, f⟩ else none))) m

/-- Initial paths of part_001 main: each transaction filtered to the items
having a header (header_map is sized by the maximal identifier, so no
capacity issue arises here), empty results skipped, multiplicity one. -/
def optPaths (txs : List (List ℕ)) (m : ℕ) : WDB :=
  txs.filterMap (fun t =>
    let ft := t.filter (fun i => decide (m ≤ globalFreq txs i))
    if ft = [] then none else some (ft, 1))

/-- Initial tree of part_001 main, built by construct_tree. -/
def optTree (txs : List (List ℕ)) (m : ℕ) : Forest :=
  construct_tree (optPaths txs m) (optHeaders txs m)

/-- Full part_001 pipeline after reading, threshold m. -/
def optRun (fuel : ℕ) (lines : List (List ℕ)) (m : ℕ) : Option (List (List ℕ × ℕ)) :=
  FP_Growth_opt fuel (optTree (optTxs lines) m) (optHeaders (optTxs lines) m) [] m

/-- Power of two as a rational, for the binary32 model. -/
def pow2 (e : ℤ) : ℚ := if 0 ≤ e then ((2 : ℚ) ^ e.toNat) else 1 / (2 : ℚ) ^ (-e).toNat

/-- Round a rational to the nearest integer, ties to even. -/
def rne (y : ℚ) : ℤ :=
  let n := ⌊y⌋
  let f := y - n
  if f < 1 / 2 then n else if 1 / 2 < f then n + 1 else if n % 2 = 0 then n else n + 1

/-- Round a positive rational to the nearest binary32 value, ties to even:
scale by the exponent so that the significand has 24 bits and round it.
Models values in the normal range of binary32, which covers every ratio and
every product arising in the claims considered here; non positive inputs
return 0. -/
def f32round (q : ℚ) : ℚ :=
  if q ≤ 0 then 0
  else
    let e := Int.log 2 q
    (rne (q / pow2 (e - 23)) : ℚ) * pow2 (e - 23)

/-- Threshold computation of both main functions,
min_sup = (int)ceil(min_sup_rate * transactions.size()), where
min_sup_rate is the binary32 value parsed from the command line (stof
rounds the decimal to the nearest binary32) and the multiplication is
performed in binary32 arithmetic. -/
def minSupCode (r : ℚ) (N : ℕ) : ℤ := ⌈f32round (f32round r * N)⌉

/-- The exact threshold demanded by the spec. -/
def minSupExact (r : ℚ) (N : ℕ) : ℤ := ⌈r * N⌉

/-! ### Derived notions used by the proofs -/

/-- Prefix of a path before the first occurrence of x: the ancestor items a
node for x receives when the path is inserted into a tree. -/
def beforeIn (x : ℕ) (p : List ℕ) : List ℕ := p.takeWhile (fun b => b ≠ x)

/-- Total weight of the database paths containing x whose prefix before x
contains every queried item. -/
def projW (E : WDB) (x : ℕ) (S : List ℕ) : ℕ :=
  (E.map (fun pc =>
    if x ∈ pc.1 ∧ (∀ a ∈ S, a ∈ beforeIn x pc.1) then pc.2 else 0)).sum

/-- Short name for the output pattern sort. -/
def sortN (l : List ℕ) : List ℕ := List.insertionSort (· ≤ ·) l

/-- The item a is strictly before the item x in the path insertion order of
the header table hs. -/
def pbefore (hs : List Hdr) (a x : ℕ) : Prop :=
  ∃ ha hx, headerMap hs a = some ha ∧ headerMap hs x = some hx ∧
    pathLe ha hx ∧ ¬ a = x

/-- Well formedness of one mining scope: a weighted database E of duplicate
free paths, a header table whose entries carry the exact singleton supports
of E and reach the threshold, and a prefix disjoint from the table. -/
structure MinerWF (E : WDB) (hdrs : List Hdr) (pref : List ℕ) (m : ℕ) : Prop where
  hm : 1 ≤ m
  hnd : (hdrs.map Hdr.item).Nodup
  hcap : ∀ h ∈ hdrs, h.item < 1000
  hfreq : ∀ h ∈ hdrs, h.freq = wsupport E [h.item]
  hge : ∀ h ∈ hdrs, m ≤ h.freq
  hE : ∀ pc ∈ E, pc.1.Nodup
  hpnd : pref.Nodup
  hdisj : ∀ h ∈ hdrs, ¬ h.item ∈ pref

/-- The pairs the miner emits while handling the header h of a scope:
extensions of the prefix by h.item and a set of items strictly before
h.item, frequent in the scope. -/
def sliceMem (E : WDB) (hdrs : List Hdr) (h : Hdr) (pref : List ℕ) (m : ℕ)
    (pr : List ℕ × ℕ) : Prop :=
  ∃ S : List ℕ, S.Nodup ∧ (∀ a ∈ S, pbefore hdrs a h.item) ∧
    m ≤ wsupport E (h.item :: S) ∧
    pr = (sortN (pref ++ h.item :: S), wsupport E (h.item :: S))

/-- The canonical description of a scope output: every frequent non empty
subset of the header items, extended by the prefix, at its scope support. -/
def canonMem (E : WDB) (hdrs : List Hdr) (pref : List ℕ) (m : ℕ)
    (pr : List ℕ × ℕ) : Prop :=
  ∃ S : List ℕ, S.Nodup ∧ ¬ S = [] ∧ (∀ a ∈ S, a ∈ hdrs.map Hdr.item) ∧
    m ≤ wsupport E S ∧ pr = (sortN (pref ++ S), wsupport E S)

/-- The body of the header loop of FP_Growth_basic, named for the proofs. -/
def basicStep (fuel : ℕ) (cs : Forest) (pref : List ℕ) (m : ℕ) (h : Hdr) :
    Option (List (List ℕ × ℕ)) :=
  let pat := List.insertionSort (· ≤ ·) (pref ++ [h.item])
  let es := collect h.item cs
  let condPaths : WDB := es.map (fun e => (e.1.reverse ++ [h.item], e.2))
  let newHeaders := condHdrs m es
  if newHeaders = [] then some [(pat, h.freq)]
  else
    let sorted := List.insertionSort hdrLe newHeaders
    (FP_Growth_basic fuel (construct_tree condPaths sorted) sorted pat m).map
      (fun sub => (pat, h.freq) :: sub)

/-- The body of the header loop of FP_Growth_opt, named for the proofs. -/
def optStep (fuel : ℕ) (cs : Forest) (pref : List ℕ) (m : ℕ) (h : Hdr) :
    Option (List (List ℕ × ℕ)) :=
  let pat := pref ++ [h.item]
  let es := collect h.item cs
  match es with
  | [e] =>
      some (write_output pat h.freq ::
        hamm_search_optimized e.1 (e.1.map (fun _ => h.freq)) h.freq pat m)
  | _ =>
      let condPaths : WDB := es.filterMap (fun e => if e.1 = [] then none else some e)
      let newHeaders := condHdrs m es
      if newHeaders = [] then some [write_output pat h.freq]
      else
        let sorted := List.insertionSort hdrLe newHeaders
        (FP_Growth_opt fuel (construct_tree condPaths sorted) sorted pat m).map
          (fun sub => write_output pat h.freq :: sub)

/-- Canonical description of a full mining run over a transaction database:
one pair per non empty frequent itemset over occurring items, at its brute
force support. -/
def canonOut (db : List (List ℕ)) (m : ℕ) (pr : List ℕ × ℕ) : Prop :=
  ∃ S : List ℕ, S.Nodup ∧ ¬ S = [] ∧ (∀ a ∈ S, ∃ t ∈ db, a ∈ t) ∧
    m ≤ support db S ∧ pr = (sortN S, support db S)

end Hamm

namespace Hamm

/-! ### Basic support algebra -/

theorem wsupport_nil (S : List ℕ) : wsupport [] S = 0 := rfl

theorem wsupport_cons (pc : List ℕ × ℕ) (E : WDB) (S : List ℕ) :
    wsupport (pc :: E) S = (if ∀ a ∈ S, a ∈ pc.1 then pc.2 else 0) + wsupport E S := rfl

theorem wsupport_append (E1 E2 : WDB) (S : List ℕ) :
    wsupport (E1 ++ E2) S = wsupport E1 S + wsupport E2 S := by
  induction E1 with
  | nil => simp [wsupport_nil, wsupport]
  | cons pc E ih => simp only [List.cons_append, wsupport_cons, ih]; ring

theorem wsupport_congr (E : WDB) {S1 S2 : List ℕ} (h : ∀ a, a ∈ S1 ↔ a ∈ S2) :
    wsupport E S1 = wsupport E S2 := by
  unfold wsupport
  congr 1
  apply List.map_congr_left
  intro pc _
  congr 1
  simp only [eq_iff_iff]
  constructor
  · intro hall a ha; exact hall a ((h a).mpr ha)
  · intro hall a ha; exact hall a ((h a).mp ha)

theorem wsupport_anti (E : WDB) {S1 S2 : List ℕ} (h : ∀ a ∈ S1, a ∈ S2) :
    wsupport E S2 ≤ wsupport E S1 := by
  unfold wsupport
  induction E with
  | nil => simp
  | cons pc E ih =>
      simp only [List.map_cons, List.sum_cons]
      gcongr
      split
      · split
        · exact le_refl _
        · next h1 h2 => exact absurd (fun a ha => h1 a (h a ha)) h2
      · exact Nat.zero_le _

/-- Appending one item to every path changes a support query exactly by
ignoring that item in the query. -/
theorem wsupport_map_append (E : WDB) (i : ℕ) (S : List ℕ) :
    wsupport (E.map (fun e => (e.1 ++ [i], e.2))) S =
      wsupport E (S.filter (fun a => a ≠ i)) := by
  induction E with
  | nil => rfl
  | cons pc E ih =>
      simp only [List.map_cons, wsupport_cons, ih]
      congr 1
      have : (∀ a ∈ S, a ∈ pc.1 ++ [i]) ↔ (∀ a ∈ S.filter (fun a => a ≠ i), a ∈ pc.1) := by
        constructor
        · intro hall a ha
          have := List.of_mem_filter ha
          have hmem := hall a (List.mem_of_mem_filter ha)
          simp only [List.mem_append, List.mem_singleton] at hmem
          rcases hmem with h1 | h1
          · exact h1
          · exact absurd (by simpa using h1) (by simpa using this)
        · intro hall a ha
          by_cases hai : a = i
          · simp [hai]
          · exact List.mem_append_left _ (hall a (List.mem_filter_of_mem ha (by simpa using hai)))
      simp only [this]

/-- Membership in a cons list restricted through a filter. -/
theorem forall_mem_cons_filter_iff (S : List ℕ) (i : ℕ) (T : List ℕ) :
    (∀ a ∈ S, a ∈ i :: T) ↔ (∀ a ∈ S.filter (fun a => a ≠ i), a ∈ T) := by
  constructor
  · intro hall a ha
    have hne := List.of_mem_filter ha
    have hmem := hall a (List.mem_of_mem_filter ha)
    simp only [List.mem_cons] at hmem
    rcases hmem with h1 | h1
    · exact absurd (by simpa using h1) (by simpa using hne)
    · exact h1
  · intro hall a ha
    by_cases hai : a = i
    · simp [hai]
    · exact List.mem_cons_of_mem _ (hall a (List.mem_filter_of_mem ha (by simpa using hai)))

end Hamm

namespace Hamm

/-! ### Collect and insertion -/

theorem collect_appendChild (x : ℕ) (t cs : Forest) :
    collect x (appendChild t cs) = collect x cs ++ collect x t := by
  induction cs with
  | nil => simp [appendChild, collect]
  | node j g ch sib ihch ihsib =>
      simp only [appendChild, collect, ihsib, List.append_assoc]

theorem beforeIn_nil (x : ℕ) : beforeIn x [] = [] := rfl

theorem beforeIn_cons (x i : ℕ) (l : List ℕ) :
    beforeIn x (i :: l) = if i = x then [] else i :: beforeIn x l := by
  unfold beforeIn
  by_cases hix : i = x <;> simp [List.takeWhile_cons, hix]

theorem beforeIn_cons_self (x : ℕ) (l : List ℕ) : beforeIn x (x :: l) = [] := by
  simp [beforeIn_cons]

theorem beforeIn_cons_ne (x i : ℕ) (l : List ℕ) (h : ¬ i = x) :
    beforeIn x (i :: l) = i :: beforeIn x l := by
  simp [beforeIn_cons, h]

/-- Support contributed by the nodes of a fresh chain. -/
theorem wsupport_collect_mkChain (x c : ℕ) (i : ℕ) (rest : List ℕ)
    (hnd : (i :: rest).Nodup) (S : List ℕ) :
    wsupport (collect x (mkChain i rest c)) S =
      if x ∈ i :: rest ∧ (∀ a ∈ S, a ∈ beforeIn x (i :: rest)) then c else 0 := by
  induction rest generalizing i S with
  | nil =>
      by_cases hix : i = x
      · subst hix
        rw [beforeIn_cons_self]
        rw [show collect i (mkChain i [] c) = [([], c)] from by simp [mkChain, collect]]
        rw [if_congr (and_iff_right (List.mem_cons_self i [])) rfl rfl]
        simp [wsupport_cons, wsupport_nil]
      · rw [show collect x (mkChain i [] c) = [] from by simp [mkChain, collect, hix]]
        rw [if_neg (by simp [hix, Ne.symm hix])]
        rfl
  | cons j rest2 ih =>
      have hnd2 : (j :: rest2).Nodup := hnd.of_cons
      have hni : i ∉ j :: rest2 := (List.nodup_cons.mp hnd).1
      have hcol : collect x (mkChain i (j :: rest2) c) =
          (if i = x then [(([] : List ℕ), c)] else []) ++
            (collect x (mkChain j rest2 c)).map (fun e => (e.1 ++ [i], e.2)) := by
        simp [mkChain, collect]
      rw [hcol, wsupport_append, wsupport_map_append, ih j hnd2]
      by_cases hix : i = x
      · subst hix
        rw [if_pos rfl, beforeIn_cons_self, if_neg (fun hc => hni hc.1)]
        rw [if_congr (and_iff_right (List.mem_cons_self i (j :: rest2))) rfl rfl]
        simp [wsupport_cons, wsupport_nil]
      · rw [if_neg hix, beforeIn_cons_ne x i _ hix]
        have hiff : (x ∈ j :: rest2 ∧
              (∀ a ∈ S.filter (fun a => a ≠ i), a ∈ beforeIn x (j :: rest2))) ↔
            (x ∈ i :: j :: rest2 ∧ (∀ a ∈ S, a ∈ i :: beforeIn x (j :: rest2))) := by
          rw [forall_mem_cons_filter_iff]
          have : (x ∈ i :: j :: rest2) ↔ (x ∈ j :: rest2) := by
            simp [List.mem_cons, Ne.symm hix]
          rw [this]
        rw [if_congr hiff rfl rfl]
        simp [wsupport_nil]

/-- Decomposition of the supports collected from one node. -/
theorem wsupport_singleton (pc : List ℕ × ℕ) (S : List ℕ) :
    wsupport [pc] S = if ∀ a ∈ S, a ∈ pc.1 then pc.2 else 0 := by
  rw [wsupport_cons, wsupport_nil, Nat.add_zero]

theorem wsupport_collect_node (x i f : ℕ) (ch sib : Forest) (S : List ℕ) :
    wsupport (collect x (Forest.node i f ch sib)) S =
      (if i = x ∧ (∀ a ∈ S, a ∈ ([] : List ℕ)) then f else 0) +
        wsupport (collect x ch) (S.filter (fun a => a ≠ i)) + wsupport (collect x sib) S := by
  simp only [collect, wsupport_append, wsupport_map_append]
  by_cases hix : i = x
  · rw [if_pos hix, wsupport_singleton]
    by_cases hS : ∀ a ∈ S, a ∈ ([] : List ℕ)
    · rw [if_pos hS, if_pos ⟨hix, hS⟩]
    · rw [if_neg hS, if_neg (fun hc => hS hc.2)]
  · rw [if_neg hix, if_neg (fun hc => hix hc.1), wsupport_nil]

/-- Effect on collected supports of updating the first child with item i by
adding c to its count and applying a transformation with known support
effect to its children. -/
theorem wsupport_collect_updChild (x i c : ℕ) (g : Forest → Forest) (d : List ℕ → ℕ)
    (hg : ∀ ch S, wsupport (collect x (g ch)) S = wsupport (collect x ch) S + d S)
    (cs : Forest) (hfound : hasItem i cs = true) (S : List ℕ) :
    wsupport (collect x (updChild i c g cs)) S =
      wsupport (collect x cs) S +
        ((if i = x ∧ (∀ a ∈ S, a ∈ ([] : List ℕ)) then c else 0) +
          d (S.filter (fun a => a ≠ i))) := by
  induction cs generalizing S with
  | nil => simp [hasItem] at hfound
  | node j f ch sib ihch ihsib =>
      by_cases hji : j = i
      · subst hji
        rw [show updChild j c g (Forest.node j f ch sib) =
            Forest.node j (f + c) (g ch) sib from by simp [updChild]]
        rw [wsupport_collect_node, wsupport_collect_node]
        rw [hg ch (S.filter (fun a => a ≠ j))]
        by_cases hjx : j = x
        · by_cases hS : ∀ a ∈ S, a ∈ ([] : List ℕ)
          · rw [if_pos ⟨hjx, hS⟩, if_pos ⟨hjx, hS⟩, if_pos ⟨hjx, hS⟩]; ring
          · rw [if_neg (fun hc => hS hc.2), if_neg (fun hc => hS hc.2),
              if_neg (fun hc => hS hc.2)]; ring
        · rw [if_neg (fun hc => hjx hc.1), if_neg (fun hc => hjx hc.1),
            if_neg (fun hc => hjx hc.1)]; ring
      · rw [show updChild i c g (Forest.node j f ch sib) =
            Forest.node j f ch (updChild i c g sib) from by simp [updChild, hji]]
        have hfs : hasItem i sib = true := by
          have h2 := hfound
          simp [hasItem, hji] at h2
          exact h2
        rw [wsupport_collect_node, wsupport_collect_node, ihsib hfs]
        ring

/-- Central insertion lemma: inserting a duplicate free path p with count c
changes the supports read off the collected nodes of x by exactly c on the
queries contained in the prefix of p before x, when x occurs in p, and not
at all otherwise. -/
theorem wsupport_collect_insertPath (x c : ℕ) (p : List ℕ) (hp : p.Nodup)
    (cs : Forest) (S : List ℕ) :
    wsupport (collect x (insertPath c p cs)) S =
      wsupport (collect x cs) S +
        (if x ∈ p ∧ (∀ a ∈ S, a ∈ beforeIn x p) then c else 0) := by
  induction p generalizing cs S with
  | nil => simp [insertPath]
  | cons i rest ih =>
      have hir : i ∉ rest := (List.nodup_cons.mp hp).1
      have hrnd : rest.Nodup := hp.of_cons
      rw [show insertPath c (i :: rest) cs =
          if hasItem i cs then updChild i c (insertPath c rest) cs
          else appendChild (mkChain i rest c) cs from rfl]
      by_cases hfound : hasItem i cs
      · rw [if_pos hfound]
        rw [wsupport_collect_updChild x i c (insertPath c rest)
          (fun S => if x ∈ rest ∧ (∀ a ∈ S, a ∈ beforeIn x rest) then c else 0)
          (fun ch S => ih hrnd ch S) cs hfound S]
        by_cases hix : i = x
        · subst hix
          rw [beforeIn_cons_self]
          rw [if_neg (fun hc : _ ∧ _ => hir hc.1)]
          rw [if_congr (and_iff_right (List.mem_cons_self i rest)) rfl rfl]
          by_cases hS : ∀ a ∈ S, a ∈ ([] : List ℕ)
          · rw [if_pos ⟨rfl, hS⟩, if_pos hS]
            ring
          · rw [if_neg (fun hc => hS hc.2), if_neg hS]
        · rw [if_neg (fun hc => hix hc.1), beforeIn_cons_ne x i rest hix]
          have hiff : (x ∈ rest ∧
                (∀ a ∈ S.filter (fun a => a ≠ i), a ∈ beforeIn x rest)) ↔
              (x ∈ i :: rest ∧ (∀ a ∈ S, a ∈ i :: beforeIn x rest)) := by
            rw [forall_mem_cons_filter_iff]
            have : (x ∈ i :: rest) ↔ (x ∈ rest) := by
              simp [List.mem_cons, Ne.symm hix]
            rw [this]
          rw [if_congr hiff rfl rfl]
          ring
      · rw [if_neg hfound, collect_appendChild, wsupport_append,
          wsupport_collect_mkChain x c i rest hp S]

theorem wsupport_collect_foldl (E : WDB) (hE : ∀ pc ∈ E, pc.1.Nodup) (x : ℕ)
    (cs : Forest) (S : List ℕ) :
    wsupport (collect x (E.foldl (fun cs pc => insertPath pc.2 pc.1 cs) cs)) S =
      wsupport (collect x cs) S + projW E x S := by
  induction E generalizing cs with
  | nil => simp [projW]
  | cons pc E ihE =>
      simp only [List.foldl_cons]
      rw [ihE (fun q hq => hE q (List.mem_cons_of_mem _ hq))]
      rw [wsupport_collect_insertPath x pc.2 pc.1 (hE pc (List.mem_cons_self _ _)) cs S]
      simp only [projW, List.map_cons, List.sum_cons]
      ring

theorem construct_tree_eq_foldl (E : WDB) (hs : List Hdr) :
    construct_tree E hs =
      (E.map (fun pc => (sortFilter hs pc.1, pc.2))).foldl
        (fun cs pc => insertPath pc.2 pc.1 cs) Forest.nil := by
  unfold construct_tree
  rw [List.foldl_map]

theorem headerMap_item {hs : List Hdr} {i : ℕ} {hd : Hdr}
    (h : headerMap hs i = some hd) : hd.item = i := by
  unfold headerMap at h
  split at h
  · have := List.find?_some h
    simpa using this
  · exact absurd h (by simp)

theorem headerMap_mem {hs : List Hdr} {i : ℕ} {hd : Hdr}
    (h : headerMap hs i = some hd) : hd ∈ hs := by
  unfold headerMap at h
  split at h
  · exact List.mem_of_find?_eq_some h
  · exact absurd h (by simp)

/-- The items of the filtered header list of a path are the kept items of
the path, in order. -/
theorem filterMap_headerMap_items (hs : List Hdr) (p : List ℕ) :
    (p.filterMap (headerMap hs)).map Hdr.item =
      p.filter (fun i => (headerMap hs i).isSome) := by
  induction p with
  | nil => rfl
  | cons i p ih =>
      cases h : headerMap hs i with
      | none => simp [List.filterMap_cons, List.filter_cons, h, ih]
      | some hd =>
          simp [List.filterMap_cons, List.filter_cons, h, ih, headerMap_item h]

theorem sortFilter_perm (hs : List Hdr) (p : List ℕ) :
    (sortFilter hs p).Perm (p.filter (fun i => (headerMap hs i).isSome)) := by
  unfold sortFilter
  rw [← filterMap_headerMap_items]
  exact (List.perm_insertionSort pathLe (p.filterMap (headerMap hs))).map Hdr.item

theorem sortFilter_mem (hs : List Hdr) (p : List ℕ) (a : ℕ) :
    a ∈ sortFilter hs p ↔ (a ∈ p ∧ (headerMap hs a).isSome) := by
  rw [(sortFilter_perm hs p).mem_iff]
  simp [List.mem_filter]

theorem sortFilter_nodup (hs : List Hdr) (p : List ℕ) (hp : p.Nodup) :
    (sortFilter hs p).Nodup :=
  ((hp.filter _).perm (sortFilter_perm hs p).symm)

theorem mem_of_mem_beforeIn {a x : ℕ} {p : List ℕ} (h : a ∈ beforeIn x p) : a ∈ p := by
  induction p with
  | nil => cases h
  | cons i l ih =>
      rw [beforeIn_cons] at h
      split at h
      · cases h
      · rcases List.mem_cons.mp h with h1 | h1
        · exact h1 ▸ List.mem_cons_self _ _
        · exact List.mem_cons_of_mem _ (ih h1)

theorem ne_of_mem_beforeIn {a x : ℕ} {p : List ℕ} (h : a ∈ beforeIn x p) : ¬ a = x := by
  have := List.mem_takeWhile_imp h
  simpa using this

theorem beforeIn_sublist (x : ℕ) (p : List ℕ) : (beforeIn x p).Sublist p :=
  List.takeWhile_sublist _

/-- Two headers of an item duplicate free list with the same item are
equal. -/
theorem eq_of_item_eq {L : List Hdr} (hnd : (L.map Hdr.item).Nodup)
    {u v : Hdr} (hu : u ∈ L) (hv : v ∈ L) (h : u.item = v.item) : u = v := by
  induction L with
  | nil => cases hu
  | cons hd tl ih =>
      simp only [List.map_cons, List.nodup_cons] at hnd
      rcases List.mem_cons.mp hu with hu1 | hu1 <;>
        rcases List.mem_cons.mp hv with hv1 | hv1
      · rw [hu1, hv1]
      · subst hu1
        exact absurd (h ▸ List.mem_map_of_mem Hdr.item hv1) hnd.1
      · subst hv1
        exact absurd (h ▸ List.mem_map_of_mem Hdr.item hu1) hnd.1
      · exact ih hnd.2 hu1 hv1

/-- In a sorted header list with duplicate free items, every strictly
smaller member appears before the first occurrence of a given member. -/
theorem sorted_mem_beforeIn {L : List Hdr} (hsort : L.Sorted pathLe)
    (hnd : (L.map Hdr.item).Nodup) {hx ha : Hdr} (hxm : hx ∈ L) (ham : ha ∈ L)
    (hle : pathLe ha hx) (hne : ¬ ha.item = hx.item) :
    ha.item ∈ beforeIn hx.item (L.map Hdr.item) := by
  induction L with
  | nil => cases hxm
  | cons hd tl ih =>
      have hsort2 : tl.Sorted pathLe := (List.sorted_cons.mp hsort).2
      have hhd : ∀ b ∈ tl, pathLe hd b := (List.sorted_cons.mp hsort).1
      have hnd2 : (tl.map Hdr.item).Nodup := (List.nodup_cons.mp hnd).2
      simp only [List.map_cons]
      by_cases hhx : hd.item = hx.item
      · have hhx2 : hd = hx := eq_of_item_eq hnd (List.mem_cons_self _ _) hxm hhx
        rcases List.mem_cons.mp ham with h1 | h1
        · exact absurd (h1 ▸ hhx) hne
        · have h2 : pathLe hx ha := hhx2 ▸ hhd ha h1
          have h3 : ha = hx := antisymm hle h2
          exact absurd (by rw [h3]) hne
      · rw [beforeIn_cons_ne _ _ _ hhx]
        have hxtl : hx ∈ tl := by
          rcases List.mem_cons.mp hxm with h1 | h1
          · exact absurd (congrArg Hdr.item h1.symm) hhx
          · exact h1
        rcases List.mem_cons.mp ham with h1 | h1
        · rw [h1]
          exact List.mem_cons_self _ _
        · exact List.mem_cons_of_mem _ (ih hsort2 hnd2 hxtl h1)

/-- Conversely, everything before the first occurrence of a member of a
sorted header list is a strictly smaller member. -/
theorem sorted_beforeIn_le {L : List Hdr} (hsort : L.Sorted pathLe)
    (hnd : (L.map Hdr.item).Nodup) {hx ha : Hdr} (hxm : hx ∈ L) (ham : ha ∈ L)
    (hmem : ha.item ∈ beforeIn hx.item (L.map Hdr.item)) :
    pathLe ha hx ∧ ¬ ha.item = hx.item := by
  induction L with
  | nil => cases hxm
  | cons hd tl ih =>
      have hsort2 : tl.Sorted pathLe := (List.sorted_cons.mp hsort).2
      have hhd : ∀ b ∈ tl, pathLe hd b := (List.sorted_cons.mp hsort).1
      have hnd2 : (tl.map Hdr.item).Nodup := (List.nodup_cons.mp hnd).2
      simp only [List.map_cons] at hmem
      by_cases hhx : hd.item = hx.item
      · rw [hhx, beforeIn_cons_self] at hmem
        cases hmem
      · rw [beforeIn_cons_ne _ _ _ hhx] at hmem
        have hxtl : hx ∈ tl := by
          rcases List.mem_cons.mp hxm with h1 | h1
          · exact absurd (congrArg Hdr.item h1.symm) hhx
          · exact h1
        rcases List.mem_cons.mp hmem with h1 | h1
        · have hha : ha = hd := by
            rcases List.mem_cons.mp ham with h2 | h2
            · exact h2
            · exact eq_of_item_eq hnd (List.mem_cons_of_mem _ h2)
                (List.mem_cons_self _ _) h1
          constructor
          · exact hha ▸ hhd hx hxtl
          · rw [hha]
            exact h1 ▸ hhx
        · have hha : ha ∈ tl := by
            rcases List.mem_cons.mp ham with h2 | h2
            · exfalso
              have h3 : hd.item ∈ tl.map Hdr.item :=
                mem_of_mem_beforeIn (h2 ▸ h1)
              exact (List.nodup_cons.mp hnd).1 h3
            · exact h2
          exact ih hsort2 hnd2 hxtl hha h1

/-- The condition read off a filtered sorted path is the plain membership
condition of the underlying path, for a query of items strictly before x
in the table order. -/
theorem sortFilter_cond_iff (hs : List Hdr) (p : List ℕ) (hp : p.Nodup)
    (x : ℕ) (hx : Hdr) (hxk : headerMap hs x = some hx) (S : List ℕ)
    (hS : ∀ a ∈ S, ∃ ha, headerMap hs a = some ha ∧ pathLe ha hx ∧ ¬ a = x) :
    (x ∈ sortFilter hs p ∧ (∀ a ∈ S, a ∈ beforeIn x (sortFilter hs p))) ↔
      (x ∈ p ∧ (∀ a ∈ S, a ∈ p)) := by
  have hxmem : x ∈ sortFilter hs p ↔ x ∈ p := by
    rw [sortFilter_mem]
    simp [hxk]
  have hLdef : sortFilter hs p =
      (List.insertionSort pathLe (p.filterMap (headerMap hs))).map Hdr.item := rfl
  have hsort : (List.insertionSort pathLe (p.filterMap (headerMap hs))).Sorted pathLe :=
    List.sorted_insertionSort pathLe _
  have hndL : ((List.insertionSort pathLe (p.filterMap (headerMap hs))).map Hdr.item).Nodup := by
    rw [← hLdef]
    exact sortFilter_nodup hs p hp
  constructor
  · rintro ⟨h1, h2⟩
    refine ⟨hxmem.mp h1, fun a ha => ?_⟩
    have h3 := mem_of_mem_beforeIn (h2 a ha)
    rw [hLdef] at h3
    rw [← hLdef] at h3
    exact ((sortFilter_mem hs p a).mp h3).1
  · rintro ⟨h1, h2⟩
    refine ⟨hxmem.mpr h1, fun a ha => ?_⟩
    obtain ⟨ha2, hak, hle, hne⟩ := hS a ha
    have hamem : ha2 ∈ List.insertionSort pathLe (p.filterMap (headerMap hs)) := by
      rw [(List.perm_insertionSort pathLe _).mem_iff]
      exact List.mem_filterMap.mpr ⟨a, h2 a ha, hak⟩
    have hxmem2 : hx ∈ List.insertionSort pathLe (p.filterMap (headerMap hs)) := by
      rw [(List.perm_insertionSort pathLe _).mem_iff]
      exact List.mem_filterMap.mpr ⟨x, h1, hxk⟩
    have hitem : ha2.item = a := headerMap_item hak
    have hxitem : hx.item = x := headerMap_item hxk
    have := sorted_mem_beforeIn hsort hndL hxmem2 hamem hle
      (by rw [hitem, hxitem]; exact hne)
    rw [hitem, hxitem, ← hLdef] at this
    exact this

/-- Projection counts on the conditional tree are plain co-occurrence
counts in the database. -/
theorem projW_sortFilter (hs : List Hdr) (E : WDB)
    (hE : ∀ pc ∈ E, pc.1.Nodup) (x : ℕ) (hx : Hdr)
    (hxk : headerMap hs x = some hx) (S : List ℕ)
    (hS : ∀ a ∈ S, ∃ ha, headerMap hs a = some ha ∧ pathLe ha hx ∧ ¬ a = x) :
    projW (E.map (fun pc => (sortFilter hs pc.1, pc.2))) x S = wsupport E (x :: S) := by
  induction E with
  | nil => rfl
  | cons pc E ih =>
      simp only [List.map_cons, projW, List.sum_cons, wsupport_cons]
      have ih2 := ih (fun q hq => hE q (List.mem_cons_of_mem _ hq))
      simp only [projW] at ih2
      rw [ih2]
      congr 1
      rw [if_congr (Iff.trans
        (sortFilter_cond_iff hs pc.1 (hE pc (List.mem_cons_self _ _)) x hx hxk S hS)
        (List.forall_mem_cons (l := S)).symm) rfl rfl]

theorem collect_mkChain_not_mem (x c i : ℕ) (rest : List ℕ)
    (h : ¬ x ∈ i :: rest) : collect x (mkChain i rest c) = [] := by
  induction rest generalizing i with
  | nil =>
      have : ¬ i = x := fun hc => h (hc ▸ List.mem_cons_self _ _)
      simp [mkChain, collect, this]
  | cons j rest2 ih =>
      have h1 : ¬ i = x := fun hc => h (hc ▸ List.mem_cons_self _ _)
      have h2 : ¬ x ∈ j :: rest2 := fun hc => h (List.mem_cons_of_mem _ hc)
      simp [mkChain, collect, h1, ih j h2]

theorem collect_mkChain_anc (x c i : ℕ) (rest : List ℕ) (hnd : (i :: rest).Nodup) :
    ∀ e ∈ collect x (mkChain i rest c),
      x ∈ i :: rest ∧ e.1 = (beforeIn x (i :: rest)).reverse := by
  induction rest generalizing i with
  | nil =>
      intro e he
      by_cases hix : i = x
      · subst hix
        rw [show collect i (mkChain i [] c) = [([], c)] from by simp [mkChain, collect]] at he
        rcases List.mem_singleton.mp he with rfl
        exact ⟨List.mem_cons_self _ _, by simp [beforeIn_cons_self]⟩
      · rw [collect_mkChain_not_mem x c i [] (by simp [Ne.symm hix])] at he
        cases he
  | cons j rest2 ih =>
      intro e he
      have hni : i ∉ j :: rest2 := (List.nodup_cons.mp hnd).1
      have hnd2 : (j :: rest2).Nodup := hnd.of_cons
      have hcol : collect x (mkChain i (j :: rest2) c) =
          (if i = x then [(([] : List ℕ), c)] else []) ++
            (collect x (mkChain j rest2 c)).map (fun e => (e.1 ++ [i], e.2)) := by
        simp [mkChain, collect]
      rw [hcol] at he
      rcases List.mem_append.mp he with h1 | h1
      · by_cases hix : i = x
        · subst hix
          rw [if_pos rfl] at h1
          rcases List.mem_singleton.mp h1 with rfl
          exact ⟨List.mem_cons_self _ _, by simp [beforeIn_cons_self]⟩
        · rw [if_neg hix] at h1
          cases h1
      · obtain ⟨e2, he2, rfl⟩ := List.mem_map.mp h1
        obtain ⟨hxm, hanc⟩ := ih j hnd2 e2 he2
        have hix : ¬ i = x := fun hc => hni (hc ▸ hxm)
        refine ⟨List.mem_cons_of_mem _ hxm, ?_⟩
        rw [hanc, beforeIn_cons_ne x i _ hix, List.reverse_cons]

theorem collect_updChild_anc (x i c : ℕ) (g : Forest → Forest)
    (P : List ℕ → Prop)
    (hg : ∀ ch, ∀ e ∈ collect x (g ch),
      e.1 ∈ (collect x ch).map Prod.fst ∨ P e.1)
    (cs : Forest) :
    ∀ e ∈ collect x (updChild i c g cs),
      e.1 ∈ (collect x cs).map Prod.fst ∨ ∃ anc, P anc ∧ e.1 = anc ++ [i] := by
  induction cs with
  | nil => intro e he; simp [updChild, collect] at he
  | node j f ch sib ihch ihsib =>
      intro e he
      by_cases hji : j = i
      · subst hji
        rw [show updChild j c g (Forest.node j f ch sib) =
            Forest.node j (f + c) (g ch) sib from by simp [updChild]] at he
        simp only [collect, List.append_assoc, List.mem_append] at he
        rcases he with h1 | h1 | h1
        · left
          simp only [collect, List.append_assoc, List.map_append, List.mem_append]
          left
          split at h1
          · next hjx =>
              rcases List.mem_singleton.mp h1 with rfl
              rw [if_pos hjx]
              simp
          · cases h1
        · obtain ⟨e2, he2, rfl⟩ := List.mem_map.mp h1
          rcases hg ch e2 he2 with h2 | h2
          · left
            obtain ⟨e3, he3, h3⟩ := List.mem_map.mp h2
            simp only [collect, List.append_assoc, List.map_append, List.mem_append]
            right; left
            refine List.mem_map.mpr ⟨(e3.1 ++ [j], e3.2), List.mem_map.mpr ⟨e3, he3, rfl⟩, ?_⟩
            simp [h3]
          · right
            exact ⟨e2.1, h2, rfl⟩
        · left
          simp only [collect, List.append_assoc, List.map_append, List.mem_append]
          right; right
          exact List.mem_map.mpr ⟨e, h1, rfl⟩
      · rw [show updChild i c g (Forest.node j f ch sib) =
            Forest.node j f ch (updChild i c g sib) from by simp [updChild, hji]] at he
        simp only [collect, List.append_assoc, List.mem_append] at he
        rcases he with h1 | h1 | h1
        · left
          simp only [collect, List.append_assoc, List.map_append, List.mem_append]
          left
          exact List.mem_map.mpr ⟨e, h1, rfl⟩
        · left
          simp only [collect, List.append_assoc, List.map_append, List.mem_append]
          right; left
          exact List.mem_map.mpr ⟨e, h1, rfl⟩
        · rcases ihsib e h1 with h2 | h2
          · left
            simp only [collect, List.append_assoc, List.map_append, List.mem_append]
            obtain ⟨e3, he3, h3⟩ := List.mem_map.mp h2
            right; right
            exact List.mem_map.mpr ⟨e3, he3, h3⟩
          · right
            exact h2

theorem collect_insertPath_anc (x c : ℕ) (p : List ℕ) (hp : p.Nodup) (cs : Forest) :
    ∀ e ∈ collect x (insertPath c p cs),
      e.1 ∈ (collect x cs).map Prod.fst ∨
        (x ∈ p ∧ e.1 = (beforeIn x p).reverse) := by
  induction p generalizing cs with
  | nil =>
      intro e he
      left
      exact List.mem_map.mpr ⟨e, he, rfl⟩
  | cons i rest ih =>
      intro e he
      have hir : i ∉ rest := (List.nodup_cons.mp hp).1
      have hrnd : rest.Nodup := hp.of_cons
      rw [show insertPath c (i :: rest) cs =
          if hasItem i cs then updChild i c (insertPath c rest) cs
          else appendChild (mkChain i rest c) cs from rfl] at he
      by_cases hfound : hasItem i cs
      · rw [if_pos hfound] at he
        rcases collect_updChild_anc x i c (insertPath c rest)
            (fun anc => x ∈ rest ∧ anc = (beforeIn x rest).reverse)
            (fun ch e2 he2 => ih hrnd ch e2 he2) cs e he with h1 | h1
        · exact Or.inl h1
        · obtain ⟨anc, ⟨hxr, hanc⟩, he1⟩ := h1
          right
          have hix : ¬ i = x := fun hc => hir (hc ▸ hxr)
          refine ⟨List.mem_cons_of_mem _ hxr, ?_⟩
          rw [he1, hanc, beforeIn_cons_ne x i _ hix, List.reverse_cons]
      · rw [if_neg hfound, collect_appendChild] at he
        rcases List.mem_append.mp he with h1 | h1
        · exact Or.inl (List.mem_map.mpr ⟨e, h1, rfl⟩)
        · exact Or.inr (collect_mkChain_anc x c i rest hp e h1)

theorem collect_foldl_anc (E : WDB) (hE : ∀ pc ∈ E, pc.1.Nodup) (x : ℕ)
    (cs : Forest) :
    ∀ e ∈ collect x (E.foldl (fun cs pc => insertPath pc.2 pc.1 cs) cs),
      e.1 ∈ (collect x cs).map Prod.fst ∨
        ∃ pc ∈ E, x ∈ pc.1 ∧ e.1 = (beforeIn x pc.1).reverse := by
  induction E generalizing cs with
  | nil =>
      intro e he
      exact Or.inl (List.mem_map.mpr ⟨e, he, rfl⟩)
  | cons pc E ihE =>
      intro e he
      simp only [List.foldl_cons] at he
      rcases ihE (fun q hq => hE q (List.mem_cons_of_mem _ hq)) _ e he with h1 | h1
      · obtain ⟨e2, he2, h2⟩ := List.mem_map.mp h1
        rcases collect_insertPath_anc x pc.2 pc.1
            (hE pc (List.mem_cons_self _ _)) cs e2 he2 with h3 | h3
        · left
          obtain ⟨e3, he3, h4⟩ := List.mem_map.mp h3
          exact List.mem_map.mpr ⟨e3, he3, h2 ▸ h4⟩
        · right
          exact ⟨pc, List.mem_cons_self _ _, h3.1, h2 ▸ h3.2⟩
      · obtain ⟨q, hq, h2⟩ := h1
        exact Or.inr ⟨q, List.mem_cons_of_mem _ hq, h2⟩

/-- Every ancestor list read from a conditional tree is the reversed prefix
before x of one of the inserted filtered sorted paths. -/
theorem collect_construct_anc (E : WDB) (hs : List Hdr)
    (hE : ∀ pc ∈ E, pc.1.Nodup) (x : ℕ) :
    ∀ e ∈ collect x (construct_tree E hs), ∃ pc ∈ E,
      x ∈ sortFilter hs pc.1 ∧ e.1 = (beforeIn x (sortFilter hs pc.1)).reverse := by
  intro e he
  rw [construct_tree_eq_foldl] at he
  rcases collect_foldl_anc _ (by
      intro q hq
      obtain ⟨pc, hpc, rfl⟩ := List.mem_map.mp hq
      exact sortFilter_nodup hs pc.1 (hE pc hpc)) x Forest.nil e he with h1 | h1
  · simp [collect] at h1
  · obtain ⟨q, hq, h2, h3⟩ := h1
    obtain ⟨pc, hpc, rfl⟩ := List.mem_map.mp hq
    exact ⟨pc, hpc, h2, h3⟩

theorem sortN_perm (l : List ℕ) : (sortN l).Perm l := List.perm_insertionSort _ l

theorem sortN_eq_of_perm {l1 l2 : List ℕ} (h : l1.Perm l2) : sortN l1 = sortN l2 :=
  List.eq_of_perm_of_sorted ((sortN_perm l1).trans (h.trans (sortN_perm l2).symm))
    (List.sorted_insertionSort _ l1) (List.sorted_insertionSort _ l2)

theorem perm_of_sortN_eq {l1 l2 : List ℕ} (h : sortN l1 = sortN l2) : l1.Perm l2 :=
  (sortN_perm l1).symm.trans (h ▸ sortN_perm l2)

theorem seqCat_cons_some {o : Option (List (List ℕ × ℕ))}
    {os : List (Option (List (List ℕ × ℕ)))} {out : List (List ℕ × ℕ)}
    (h : seqCat (o :: os) = some out) :
    ∃ v rest, o = some v ∧ seqCat os = some rest ∧ out = v ++ rest := by
  cases o with
  | none => simp [seqCat] at h
  | some v =>
      cases hrest : seqCat os with
      | none => simp [seqCat, hrest] at h
      | some rest =>
          simp only [seqCat, hrest, Option.some.injEq] at h
          exact ⟨v, rest, rfl, rfl, h.symm⟩

theorem headerMap_self {hs : List Hdr} (hnd : (hs.map Hdr.item).Nodup)
    {h : Hdr} (hmem : h ∈ hs) (hlt : h.item < 1000) :
    headerMap hs h.item = some h := by
  unfold headerMap
  rw [if_pos hlt]
  induction hs with
  | nil => cases hmem
  | cons hd tl ih =>
      rcases List.mem_cons.mp hmem with h1 | h1
      · subst h1
        simp [List.find?_cons]
      · have hne : (hd.item == h.item) = false := by
          simp only [List.map_cons, List.nodup_cons] at hnd
          simp only [beq_eq_false_iff_ne, ne_eq]
          intro hc
          exact hnd.1 (hc ▸ List.mem_map_of_mem Hdr.item h1)
        rw [show List.find? (fun h2 => h2.item == h.item) (hd :: tl) =
          List.find? (fun h2 => h2.item == h.item) tl from by
            simp [List.find?, hne]]
        exact ih (by
          simp only [List.map_cons, List.nodup_cons] at hnd
          exact hnd.2) h1

/-- Dropping empty paths does not change non empty support queries. -/
theorem wsupport_filter_empty (es : WDB) (S : List ℕ) (hS : ¬ S = []) :
    wsupport (es.filterMap (fun e => if e.1 = [] then none else some e)) S =
      wsupport es S := by
  induction es with
  | nil => rfl
  | cons e es ih =>
      by_cases hemp : e.1 = []
      · rw [show (e :: es).filterMap (fun e => if e.1 = [] then none else some e) =
          es.filterMap (fun e => if e.1 = [] then none else some e) from by
            simp [List.filterMap_cons, hemp]]
        rw [ih, wsupport_cons]
        have hno : ¬ ∀ a ∈ S, a ∈ e.1 := by
          cases S with
          | nil => exact absurd rfl hS
          | cons b S2 =>
              intro hall
              have hmb := hall b (List.mem_cons_self _ _)
              rw [hemp] at hmb
              cases hmb
        rw [if_neg hno]
        omega
      · rw [show (e :: es).filterMap (fun e => if e.1 = [] then none else some e) =
          e :: es.filterMap (fun e => if e.1 = [] then none else some e) from by
            simp [List.filterMap_cons, hemp]]
        rw [wsupport_cons, wsupport_cons, ih]

/-- Appending the projected item at the top of every path does not change
queries avoiding that item. -/
theorem wsupport_revx (es : WDB) (x : ℕ) (S : List ℕ) (hS : ∀ a ∈ S, ¬ a = x) :
    wsupport (es.map (fun e => (e.1.reverse ++ [x], e.2))) S = wsupport es S := by
  induction es with
  | nil => rfl
  | cons e es ih =>
      simp only [List.map_cons, wsupport_cons, ih]
      congr 1
      have hiff : (∀ a ∈ S, a ∈ e.1.reverse ++ [x]) ↔ (∀ a ∈ S, a ∈ e.1) := by
        constructor
        · intro hall a ha
          have hm2 := hall a ha
          simp only [List.mem_append, List.mem_reverse, List.mem_singleton] at hm2
          rcases hm2 with h1 | h1
          · exact h1
          · exact absurd h1 (hS a ha)
        · intro hall a ha
          simp only [List.mem_append, List.mem_reverse, List.mem_singleton]
          exact Or.inl (hall a ha)
      rw [if_congr hiff rfl rfl]

/-- The accumulated conditional count is the membership support when the
ancestor lists are duplicate free. -/
theorem condCountM_eq_wsupport (es : WDB) (h : ∀ e ∈ es, e.1.Nodup) (a : ℕ) :
    condCountM es a = wsupport es [a] := by
  induction es with
  | nil => rfl
  | cons e es ih =>
      simp only [condCountM, List.map_cons, List.sum_cons, wsupport_cons]
      rw [show (es.map (fun e => e.2 * e.1.count a)).sum = condCountM es a from rfl]
      rw [ih (fun q hq => h q (List.mem_cons_of_mem _ hq))]
      congr 1
      by_cases hmem : a ∈ e.1
      · rw [List.count_eq_one_of_mem (h e (List.mem_cons_self _ _)) hmem]
        rw [if_pos (by simpa using hmem)]
        ring
      · rw [List.count_eq_zero_of_not_mem hmem]
        rw [if_neg (by simpa using hmem)]
        ring

theorem condHdrs_mem {m : ℕ} {es : WDB} {h : Hdr} (hmem : h ∈ condHdrs m es) :
    h.freq = condCountM es h.item ∧ m ≤ h.freq ∧ h.item < 1000 := by
  unfold condHdrs at hmem
  obtain ⟨a, ha, hsome⟩ := List.mem_filterMap.mp hmem
  split at hsome
  · next hcnt =>
      cases hsome
      exact ⟨rfl, hcnt, List.mem_range.mp ha⟩
  · cases hsome

theorem condHdrs_complete {m : ℕ} {es : WDB} {a : ℕ} (ha : a < 1000)
    (hcnt : m ≤ condCountM es a) : (⟨a, condCountM es a⟩ : Hdr) ∈ condHdrs m es := by
  unfold condHdrs
  exact List.mem_filterMap.mpr ⟨a, List.mem_range.mpr ha, by simp [hcnt]⟩

theorem condHdrs_item_nodup (m : ℕ) (es : WDB) :
    ((condHdrs m es).map Hdr.item).Nodup := by
  unfold condHdrs
  have h1 : ∀ l : List ℕ, l.Nodup →
      (((l.filterMap (fun a =>
        if m ≤ condCountM es a then some (⟨a, condCountM es a⟩ : Hdr)
        else none))).map Hdr.item).Nodup := by
    intro l hl
    induction l with
    | nil => simp
    | cons a l ih =>
        simp only [List.filterMap_cons]
        have hal : a ∉ l := (List.nodup_cons.mp hl).1
        have hl2 : l.Nodup := hl.of_cons
        split
        · exact ih hl2
        · next hd hsome =>
            split at hsome
            · cases hsome
              simp only [List.map_cons, List.nodup_cons]
              refine ⟨?_, ih hl2⟩
              intro hc
              obtain ⟨h2, h3, h4⟩ := List.mem_map.mp hc
              obtain ⟨b, hb, hbsome⟩ := List.mem_filterMap.mp h3
              split at hbsome
              · cases hbsome
                exact hal (h4 ▸ hb)
              · cases hbsome
            · cases hsome
  exact h1 (List.range 1000) (List.nodup_range 1000)

theorem pbefore_elim {hs : List Hdr} {a x : ℕ} {hx : Hdr}
    (hxk : headerMap hs x = some hx) (h : pbefore hs a x) :
    ∃ ha, headerMap hs a = some ha ∧ pathLe ha hx ∧ ¬ a = x := by
  obtain ⟨ha, hx2, h1, h2, h3, h4⟩ := h
  rw [hxk] at h2
  cases h2
  exact ⟨ha, h1, h3, h4⟩

theorem mem_filterMap_headerMap {hs : List Hdr} {p : List ℕ} {u : Hdr}
    (h : u ∈ p.filterMap (headerMap hs)) :
    headerMap hs u.item = some u := by
  obtain ⟨b, hb, hsome⟩ := List.mem_filterMap.mp h
  have hbi : u.item = b := headerMap_item hsome
  rw [hbi]
  exact hsome

/-- The supports read off the collected nodes of x in a conditional tree
are the co-occurrence supports with x in the database it was built from,
for queries of items strictly before x. -/
theorem wsupport_collect_construct (E : WDB) (hs : List Hdr)
    (hE : ∀ pc ∈ E, pc.1.Nodup) (x : ℕ) (hx : Hdr)
    (hxk : headerMap hs x = some hx) (S : List ℕ)
    (hS : ∀ a ∈ S, pbefore hs a x) :
    wsupport (collect x (construct_tree E hs)) S = wsupport E (x :: S) := by
  rw [construct_tree_eq_foldl]
  rw [wsupport_collect_foldl _ (by
    intro q hq
    obtain ⟨pc, hpc, rfl⟩ := List.mem_map.mp hq
    exact sortFilter_nodup hs pc.1 (hE pc hpc)) x Forest.nil S]
  rw [show wsupport (collect x Forest.nil) S = 0 from rfl, Nat.zero_add]
  exact projW_sortFilter hs E hE x hx hxk S
    (fun a ha => pbefore_elim hxk (hS a ha))

/-- Every collected ancestor list of a conditional tree is duplicate free
and consists of items strictly before the projected item. -/
theorem collect_construct_entries (E : WDB) (hs : List Hdr)
    (hE : ∀ pc ∈ E, pc.1.Nodup) (x : ℕ) :
    ∀ e ∈ collect x (construct_tree E hs),
      e.1.Nodup ∧ ∀ a ∈ e.1, pbefore hs a x := by
  intro e he
  obtain ⟨pc, hpc, hxm, hanc⟩ := collect_construct_anc E hs hE x e he
  have hpnd : pc.1.Nodup := hE pc hpc
  have hsfnd : (sortFilter hs pc.1).Nodup := sortFilter_nodup hs pc.1 hpnd
  constructor
  · rw [hanc, List.nodup_reverse]
    exact hsfnd.sublist (beforeIn_sublist x _)
  · intro a ha
    rw [hanc, List.mem_reverse] at ha
    have hLdef : sortFilter hs pc.1 =
        (List.insertionSort pathLe (pc.1.filterMap (headerMap hs))).map Hdr.item := rfl
    have hsort : (List.insertionSort pathLe (pc.1.filterMap (headerMap hs))).Sorted pathLe :=
      List.sorted_insertionSort pathLe _
    have hndL : ((List.insertionSort pathLe
        (pc.1.filterMap (headerMap hs))).map Hdr.item).Nodup := by
      rw [← hLdef]
      exact hsfnd
    have hasf : a ∈ sortFilter hs pc.1 := mem_of_mem_beforeIn ha
    obtain ⟨ha2, haL, hai⟩ := List.mem_map.mp (hLdef ▸ hasf)
    obtain ⟨hx2, hxL, hxi⟩ := List.mem_map.mp (hLdef ▸ hxm)
    have hble := sorted_beforeIn_le hsort hndL hxL haL
      (by rw [hai, hxi, ← hLdef]; exact ha)
    have hak : headerMap hs a = some ha2 := by
      rw [← hai]
      exact mem_filterMap_headerMap
        ((List.perm_insertionSort pathLe _).mem_iff.mp haL)
    have hxk : headerMap hs x = some hx2 := by
      rw [← hxi]
      exact mem_filterMap_headerMap
        ((List.perm_insertionSort pathLe _).mem_iff.mp hxL)
    exact ⟨ha2, hx2, hak, hxk, hble.1, by rw [← hai, ← hxi]; exact hble.2⟩

theorem wsupport_pos_mem {es : WDB} {S : List ℕ} (h : 1 ≤ wsupport es S) :
    ∃ e ∈ es, ∀ a ∈ S, a ∈ e.1 := by
  induction es with
  | nil => simp [wsupport_nil] at h
  | cons e es ih =>
      rw [wsupport_cons] at h
      by_cases hc : ∀ a ∈ S, a ∈ e.1
      · exact ⟨e, List.mem_cons_self _ _, hc⟩
      · rw [if_neg hc, Nat.zero_add] at h
        obtain ⟨e2, he2, h2⟩ := ih h
        exact ⟨e2, List.mem_cons_of_mem _ he2, h2⟩

theorem wsupport_perm (E : WDB) {S1 S2 : List ℕ} (h : S1.Perm S2) :
    wsupport E S1 = wsupport E S2 :=
  wsupport_congr E (fun a => h.mem_iff)

/-- Every non empty duplicate free set of items of a header table has an
element that every other element is strictly before. -/
theorem exists_pathLe_max (hs : List Hdr) (S : List ℕ) (hnd : S.Nodup)
    (hne : ¬ S = []) (hmem : ∀ a ∈ S, ∃ ha, headerMap hs a = some ha) :
    ∃ x ∈ S, ∀ a ∈ S, ¬ a = x → pbefore hs a x := by
  induction S with
  | nil => exact absurd rfl hne
  | cons a rest ih =>
      by_cases hrnil : rest = []
      · subst hrnil
        refine ⟨a, List.mem_cons_self _ _, fun b hb hbne => ?_⟩
        rcases List.mem_singleton.mp hb with rfl
        exact absurd rfl hbne
      · obtain ⟨y, hy, hymax⟩ := ih hnd.of_cons hrnil
          (fun b hb => hmem b (List.mem_cons_of_mem _ hb))
        obtain ⟨ha, hak⟩ := hmem a (List.mem_cons_self _ _)
        obtain ⟨hyh, hyk⟩ := hmem y (List.mem_cons_of_mem _ hy)
        have hay : ¬ a = y := by
          intro hc
          exact (List.nodup_cons.mp hnd).1 (hc ▸ hy)
        rcases (inferInstance : IsTotal Hdr pathLe).total ha hyh with hle | hle
        · refine ⟨y, List.mem_cons_of_mem _ hy, fun b hb hbne => ?_⟩
          rcases List.mem_cons.mp hb with rfl | hb2
          · exact ⟨ha, hyh, hak, hyk, hle, hay⟩
          · exact hymax b hb2 hbne
        · refine ⟨a, List.mem_cons_self _ _, fun b hb hbne => ?_⟩
          rcases List.mem_cons.mp hb with rfl | hb2
          · exact absurd rfl hbne
          · by_cases hby : b = y
            · subst hby
              exact ⟨hyh, ha, hyk, hak, hle, hbne⟩
            · obtain ⟨hbh, hyh2, hbk, hyk2, hble, hbney⟩ := hymax b hb2 hby
              rw [hyk] at hyk2
              cases hyk2
              exact ⟨hbh, ha, hbk, hak,
                (inferInstance : IsTrans Hdr pathLe).trans _ _ _ hble hle, hbne⟩

theorem FP_Growth_basic_succ (fuel : ℕ) (cs : Forest) (hdrs : List Hdr)
    (pref : List ℕ) (m : ℕ) :
    FP_Growth_basic (fuel + 1) cs hdrs pref m =
      seqCat (hdrs.map (basicStep fuel cs pref m)) := rfl

theorem FP_Growth_opt_succ (fuel : ℕ) (cs : Forest) (hdrs : List Hdr)
    (pref : List ℕ) (m : ℕ) :
    FP_Growth_opt (fuel + 1) cs hdrs pref m =
      seqCat (hdrs.map (optStep fuel cs pref m)) := rfl

theorem scope_hxk {E : WDB} {hdrs : List Hdr} {pref : List ℕ} {m : ℕ}
    (wf : MinerWF E hdrs pref m) {h : Hdr} (hmem : h ∈ hdrs) :
    headerMap hdrs h.item = some h :=
  headerMap_self wf.hnd hmem (wf.hcap h hmem)

theorem scope_bridge {E : WDB} {hdrs : List Hdr} {pref : List ℕ} {m : ℕ}
    (wf : MinerWF E hdrs pref m) {h : Hdr} (hmem : h ∈ hdrs) (S : List ℕ)
    (hS : ∀ a ∈ S, pbefore hdrs a h.item) :
    wsupport (collect h.item (construct_tree E hdrs)) S = wsupport E (h.item :: S) :=
  wsupport_collect_construct E hdrs wf.hE h.item h (scope_hxk wf hmem) S hS

theorem scope_cond_pos {E : WDB} {hdrs : List Hdr} {pref : List ℕ} {m : ℕ}
    (wf : MinerWF E hdrs pref m) (h : Hdr) (a : ℕ)
    (hpos : 1 ≤ condCountM (collect h.item (construct_tree E hdrs)) a) :
    pbefore hdrs a h.item := by
  rw [condCountM_eq_wsupport _
    (fun e he => (collect_construct_entries E hdrs wf.hE h.item e he).1) a] at hpos
  obtain ⟨e, he, hmem2⟩ := wsupport_pos_mem hpos
  exact (collect_construct_entries E hdrs wf.hE h.item e he).2 a
    (hmem2 a (List.mem_cons_self _ _))

theorem scope_pat_nodup {E : WDB} {hdrs : List Hdr} {pref : List ℕ} {m : ℕ}
    (wf : MinerWF E hdrs pref m) {h : Hdr} (hmem : h ∈ hdrs) :
    (pref ++ [h.item]).Nodup := by
  rw [List.nodup_append]
  exact ⟨wf.hpnd, List.nodup_singleton _,
    fun a ha => by
      simp only [List.mem_singleton]
      intro hc
      exact wf.hdisj h hmem (hc ▸ ha)⟩

/-- The conditional scope of one header of a well formed scope is itself
well formed: database of reversed ancestor paths capped by the item, header
table of the accumulated counts, prefix extended by the item. -/
theorem condWF (E : WDB) (hdrs : List Hdr) (pref : List ℕ) (m : ℕ)
    (wf : MinerWF E hdrs pref m) (h : Hdr) (hmem : h ∈ hdrs) :
    MinerWF ((collect h.item (construct_tree E hdrs)).map
        (fun e => (e.1.reverse ++ [h.item], e.2)))
      (List.insertionSort hdrLe (condHdrs m (collect h.item (construct_tree E hdrs))))
      (List.insertionSort (· ≤ ·) (pref ++ [h.item])) m := by
  set es := collect h.item (construct_tree E hdrs) with hes
  have hperm : (List.insertionSort hdrLe (condHdrs m es)).Perm (condHdrs m es) :=
    List.perm_insertionSort hdrLe _
  have hinN : ∀ h2 ∈ List.insertionSort hdrLe (condHdrs m es), h2 ∈ condHdrs m es :=
    fun h2 hh2 => hperm.mem_iff.mp hh2
  have hentries := collect_construct_entries E hdrs wf.hE h.item
  have hpos : ∀ h2 ∈ List.insertionSort hdrLe (condHdrs m es),
      pbefore hdrs h2.item h.item := by
    intro h2 hh2
    obtain ⟨hfr, hge, hlt⟩ := condHdrs_mem (hinN h2 hh2)
    exact scope_cond_pos wf h h2.item (le_trans wf.hm (hfr ▸ hge))
  refine ⟨wf.hm, ?_, ?_, ?_, ?_, ?_, ?_, ?_⟩
  · rw [(hperm.map Hdr.item).nodup_iff]
    exact condHdrs_item_nodup m es
  · intro h2 hh2
    exact (condHdrs_mem (hinN h2 hh2)).2.2
  · intro h2 hh2
    obtain ⟨hfr, hge, hlt⟩ := condHdrs_mem (hinN h2 hh2)
    have hnx : ¬ h2.item = h.item := by
      obtain ⟨_, _, _, _, _, hne⟩ := hpos h2 hh2
      exact hne
    rw [hfr, condCountM_eq_wsupport es (fun e he => (hentries e he).1) h2.item]
    rw [← wsupport_revx es h.item [h2.item]
      (by intro a ha; rcases List.mem_singleton.mp ha with rfl; exact hnx)]
  · intro h2 hh2
    exact (condHdrs_mem (hinN h2 hh2)).2.1
  · intro pc hpc
    obtain ⟨e, he, rfl⟩ := List.mem_map.mp hpc
    have hend : e.1.Nodup := (hentries e he).1
    have hx : ∀ a ∈ e.1, ¬ a = h.item := by
      intro a ha
      obtain ⟨_, _, _, _, _, hne⟩ := (hentries e he).2 a ha
      exact hne
    rw [List.nodup_append]
    refine ⟨List.nodup_reverse.mpr hend, List.nodup_singleton _, ?_⟩
    intro a ha
    simp only [List.mem_singleton]
    intro hc
    exact hx a (List.mem_reverse.mp ha) hc
  · rw [(List.perm_insertionSort _ _).nodup_iff]
    exact scope_pat_nodup wf hmem
  · intro h2 hh2
    rw [(List.perm_insertionSort (· ≤ ·) (pref ++ [h.item])).mem_iff]
    obtain ⟨ha, hx2, hak, hxk2, hle, hne⟩ := hpos h2 hh2
    have haitem : ha.item = h2.item := headerMap_item hak
    have hain : ha ∈ hdrs := headerMap_mem hak
    simp only [List.mem_append, List.mem_singleton]
    rintro (hc | hc)
    · exact wf.hdisj ha hain (haitem ▸ hc)
    · exact hne hc

theorem sorted_cond_facts {E : WDB} {hdrs : List Hdr} {pref : List ℕ} {m : ℕ}
    (wf : MinerWF E hdrs pref m) (h : Hdr) {h2 : Hdr}
    (hh2 : h2 ∈ List.insertionSort hdrLe
      (condHdrs m (collect h.item (construct_tree E hdrs)))) :
    pbefore hdrs h2.item h.item ∧
      h2.freq = condCountM (collect h.item (construct_tree E hdrs)) h2.item ∧
      m ≤ h2.freq ∧ h2.item < 1000 := by
  have hin : h2 ∈ condHdrs m (collect h.item (construct_tree E hdrs)) :=
    (List.perm_insertionSort hdrLe _).mem_iff.mp hh2
  obtain ⟨hfr, hge, hlt⟩ := condHdrs_mem hin
  exact ⟨scope_cond_pos wf h h2.item (le_trans wf.hm (hfr ▸ hge)), hfr, hge, hlt⟩

/-- Combined support conversion: a query of items strictly before x read in
the conditional database equals the query extended by x in the scope
database. -/
theorem scope_cond_support {E : WDB} {hdrs : List Hdr} {pref : List ℕ} {m : ℕ}
    (wf : MinerWF E hdrs pref m) {h : Hdr} (hmem : h ∈ hdrs) (S : List ℕ)
    (hS : ∀ a ∈ S, pbefore hdrs a h.item) :
    wsupport ((collect h.item (construct_tree E hdrs)).map
        (fun e => (e.1.reverse ++ [h.item], e.2))) S = wsupport E (h.item :: S) := by
  rw [wsupport_revx _ h.item S (fun a ha => by
    obtain ⟨_, _, _, _, _, hne⟩ := hS a ha
    exact hne)]
  exact scope_bridge wf hmem S hS

/-- The slices of the conditional scope of h are exactly the non empty
frequent extensions of h in the enclosing scope. -/
theorem slice_translate (E : WDB) (hdrs : List Hdr) (pref : List ℕ) (m : ℕ)
    (wf : MinerWF E hdrs pref m) (h : Hdr) (hmem : h ∈ hdrs) (pr : List ℕ × ℕ) :
    (∃ h2 ∈ List.insertionSort hdrLe
        (condHdrs m (collect h.item (construct_tree E hdrs))),
      sliceMem ((collect h.item (construct_tree E hdrs)).map
          (fun e => (e.1.reverse ++ [h.item], e.2)))
        (List.insertionSort hdrLe (condHdrs m (collect h.item (construct_tree E hdrs))))
        h2 (List.insertionSort (· ≤ ·) (pref ++ [h.item])) m pr) ↔
      (∃ S : List ℕ, S.Nodup ∧ ¬ S = [] ∧ (∀ a ∈ S, pbefore hdrs a h.item) ∧
        m ≤ wsupport E (h.item :: S) ∧
        pr = (sortN (pref ++ h.item :: S), wsupport E (h.item :: S))) := by
  set x := h.item with hx
  set es := collect x (construct_tree E hdrs) with hesdef
  set N := condHdrs m es with hN
  set sorted := List.insertionSort hdrLe N with hsorted
  set pat := List.insertionSort (· ≤ ·) (pref ++ [x]) with hpat
  have hwfsub := condWF E hdrs pref m wf h hmem
  have hsortednd : (sorted.map Hdr.item).Nodup := hwfsub.hnd
  have hpatperm : pat.Perm (pref ++ [x]) := List.perm_insertionSort _ _
  have hsortform : ∀ (L : List ℕ), sortN (pat ++ L) = sortN (pref ++ x :: L) := by
    intro L
    have h1 : (pat ++ L).Perm ((pref ++ [x]) ++ L) := hpatperm.append_right L
    have h2 : (pref ++ [x]) ++ L = pref ++ x :: L := by simp
    rw [sortN_eq_of_perm h1, h2]
  constructor
  · rintro ⟨h2, hh2, T, hTnd, hTbef, hTm, hTpr⟩
    obtain ⟨hpb2, hfr2, hge2, hlt2⟩ := sorted_cond_facts wf h hh2
    have hTpb : ∀ b ∈ T, pbefore hdrs b x := by
      intro b hb
      obtain ⟨hb2, hz2, hbk, hzk, hble, hbne⟩ := hTbef b hb
      have hbin : hb2 ∈ sorted := headerMap_mem hbk
      have hbitem : hb2.item = b := headerMap_item hbk
      obtain ⟨hpb3, _, _, _⟩ := sorted_cond_facts wf h hbin
      rw [hbitem] at hpb3
      exact hpb3
    have hSpb : ∀ b ∈ h2.item :: T, pbefore hdrs b x := by
      intro b hb
      rcases List.mem_cons.mp hb with rfl | hb2
      · exact hpb2
      · exact hTpb b hb2
    have hSnd : (h2.item :: T).Nodup := by
      rw [List.nodup_cons]
      refine ⟨?_, hTnd⟩
      intro hc
      obtain ⟨_, _, _, _, _, hne⟩ := hTbef h2.item hc
      exact hne rfl
    have hsup : wsupport ((collect x (construct_tree E hdrs)).map
        (fun e => (e.1.reverse ++ [x], e.2))) (h2.item :: T) =
        wsupport E (x :: h2.item :: T) := scope_cond_support wf hmem _ hSpb
    refine ⟨h2.item :: T, hSnd, by simp, hSpb, ?_, ?_⟩
    · rw [← hsup]
      exact hTm
    · rw [hTpr, hsortform (h2.item :: T), hsup]
  · rintro ⟨S, hSnd, hSne, hSpb, hSm, hSpr⟩
    have hSin : ∀ a ∈ S, m ≤ condCountM es a ∧ a < 1000 := by
      intro a ha
      have hanti : wsupport E (x :: S) ≤ wsupport E (x :: [a]) := by
        apply wsupport_anti
        intro b hb
        rcases List.mem_cons.mp hb with rfl | hb2
        · exact List.mem_cons_self _ _
        · rcases List.mem_singleton.mp hb2 with rfl
          exact List.mem_cons_of_mem _ ha
      have hbr : wsupport es [a] = wsupport E (x :: [a]) :=
        scope_bridge wf hmem [a] (by
          intro b hb
          rw [List.mem_singleton] at hb
          rw [hb]
          exact hSpb a ha)
      have hcnt : condCountM es a = wsupport es [a] :=
        condCountM_eq_wsupport es
          (fun e he => (collect_construct_entries E hdrs wf.hE x e he).1) a
      have hlt : a < 1000 := by
        obtain ⟨ha2, _, hak, _, _, _⟩ := hSpb a ha
        have := wf.hcap ha2 (headerMap_mem hak)
        rw [headerMap_item hak] at this
        exact this
      exact ⟨by omega, hlt⟩
    have hSinS : ∀ a ∈ S, ∃ ha2, headerMap sorted a = some ha2 := by
      intro a ha
      obtain ⟨hcnt, hlt⟩ := hSin a ha
      have hmem2 : (⟨a, condCountM es a⟩ : Hdr) ∈ sorted := by
        rw [hsorted, (List.perm_insertionSort hdrLe N).mem_iff]
        exact condHdrs_complete hlt hcnt
      exact ⟨⟨a, condCountM es a⟩, headerMap_self hsortednd hmem2 hlt⟩
    obtain ⟨z, hz, hzmax⟩ := exists_pathLe_max sorted S hSnd hSne hSinS
    obtain ⟨hz2, hzk⟩ := hSinS z hz
    have hzin : hz2 ∈ sorted := headerMap_mem hzk
    have hzitem : hz2.item = z := headerMap_item hzk
    have hperm : S.Perm (z :: S.erase z) := List.perm_cons_erase hz
    have hTpb : ∀ b ∈ S.erase z, pbefore sorted b z := by
      intro b hb
      have hbS : b ∈ S := List.mem_of_mem_erase hb
      have hbne : ¬ b = z := ((List.Nodup.mem_erase_iff hSnd).mp hb).1
      exact hzmax b hbS hbne
    have hSpb2 : ∀ b ∈ z :: S.erase z, pbefore hdrs b x := by
      intro b hb
      exact hSpb b (hperm.mem_iff.mpr hb)
    have hsup : wsupport ((collect x (construct_tree E hdrs)).map
        (fun e => (e.1.reverse ++ [x], e.2))) (z :: S.erase z) =
        wsupport E (x :: z :: S.erase z) := scope_cond_support wf hmem _ hSpb2
    have hw : wsupport E (x :: z :: S.erase z) = wsupport E (x :: S) :=
      wsupport_perm E (by exact (hperm.cons x).symm)
    refine ⟨hz2, hzin, S.erase z, hSnd.erase z, ?_, ?_, ?_⟩
    · rw [hzitem]
      exact hTpb
    · rw [hzitem, hsup, hw]
      exact hSm
    · rw [hzitem, hsup, hw, hSpr, hsortform (z :: S.erase z)]
      rw [sortN_eq_of_perm ((hperm.cons x).symm.append_left pref)]

/-- The base pair of a header is a slice member with the empty extension. -/
theorem slice_base {E : WDB} {hdrs : List Hdr} {pref : List ℕ} {m : ℕ}
    (wf : MinerWF E hdrs pref m) {h : Hdr} (hmem : h ∈ hdrs) :
    sliceMem E hdrs h pref m (sortN (pref ++ [h.item]), h.freq) := by
  refine ⟨[], List.nodup_nil, by simp, ?_, ?_⟩
  · rw [← wf.hfreq h hmem]
    exact wf.hge h hmem
  · rw [← wf.hfreq h hmem]

/-- A member of a non trivial slice forces its items into the conditional
header table. -/
theorem scope_S_cond {E : WDB} {hdrs : List Hdr} {pref : List ℕ} {m : ℕ}
    (wf : MinerWF E hdrs pref m) {h : Hdr} (hmem : h ∈ hdrs) {S : List ℕ} {a : ℕ}
    (ha : a ∈ S) (hSpb : ∀ b ∈ S, pbefore hdrs b h.item)
    (hSm : m ≤ wsupport E (h.item :: S)) :
    m ≤ condCountM (collect h.item (construct_tree E hdrs)) a ∧ a < 1000 := by
  have hanti : wsupport E (h.item :: S) ≤ wsupport E (h.item :: [a]) := by
    apply wsupport_anti
    intro b hb
    rcases List.mem_cons.mp hb with rfl | hb2
    · exact List.mem_cons_self _ _
    · rw [List.mem_singleton] at hb2
      rw [hb2]
      exact List.mem_cons_of_mem _ ha
  have hbr : wsupport (collect h.item (construct_tree E hdrs)) [a] =
      wsupport E (h.item :: [a]) :=
    scope_bridge wf hmem [a] (by
      intro b hb
      rw [List.mem_singleton] at hb
      rw [hb]
      exact hSpb a ha)
  have hcnt : condCountM (collect h.item (construct_tree E hdrs)) a =
      wsupport (collect h.item (construct_tree E hdrs)) [a] :=
    condCountM_eq_wsupport _
      (fun e he => (collect_construct_entries E hdrs wf.hE h.item e he).1) a
  have hlt : a < 1000 := by
    obtain ⟨ha2, _, hak, _, _, _⟩ := hSpb a ha
    have hc := wf.hcap ha2 (headerMap_mem hak)
    rw [headerMap_item hak] at hc
    exact hc
  exact ⟨by omega, hlt⟩

/-- Characterization of the output of one header of FP_Growth_basic. -/
theorem basicStep_chr (fuel : ℕ) (E : WDB) (hdrs : List Hdr) (pref : List ℕ)
    (m : ℕ) (wf : MinerWF E hdrs pref m) (h : Hdr) (hmem : h ∈ hdrs)
    (IH : ∀ E2 hdrs2 pref2 out2, MinerWF E2 hdrs2 pref2 m →
      FP_Growth_basic fuel (construct_tree E2 hdrs2) hdrs2 pref2 m = some out2 →
      (∀ pr, pr ∈ out2 ↔ ∃ h2 ∈ hdrs2, sliceMem E2 hdrs2 h2 pref2 m pr) ∧
        (out2.map Prod.fst).Nodup)
    {v : List (List ℕ × ℕ)}
    (hv : basicStep fuel (construct_tree E hdrs) pref m h = some v) :
    (∀ pr, pr ∈ v ↔ sliceMem E hdrs h pref m pr) ∧ (v.map Prod.fst).Nodup := by
  have hstep : basicStep fuel (construct_tree E hdrs) pref m h =
      (if condHdrs m (collect h.item (construct_tree E hdrs)) = []
       then some [(List.insertionSort (· ≤ ·) (pref ++ [h.item]), h.freq)]
       else ((FP_Growth_basic fuel
          (construct_tree ((collect h.item (construct_tree E hdrs)).map
            (fun e => (e.1.reverse ++ [h.item], e.2)))
            (List.insertionSort hdrLe
              (condHdrs m (collect h.item (construct_tree E hdrs)))))
          (List.insertionSort hdrLe
            (condHdrs m (collect h.item (construct_tree E hdrs))))
          (List.insertionSort (· ≤ ·) (pref ++ [h.item])) m).map
          (fun sub =>
            (List.insertionSort (· ≤ ·) (pref ++ [h.item]), h.freq) :: sub))) := rfl
  rw [hstep] at hv
  by_cases hNe : condHdrs m (collect h.item (construct_tree E hdrs)) = []
  · rw [if_pos hNe] at hv
    have hveq : v = [(List.insertionSort (· ≤ ·) (pref ++ [h.item]), h.freq)] :=
      (Option.some.inj hv).symm
    subst hveq
    constructor
    · intro pr
      constructor
      · intro hpr
        rw [List.mem_singleton] at hpr
        rw [hpr]
        exact slice_base wf hmem
      · rintro ⟨S, hSnd, hSpb, hSm, hSpr⟩
        by_cases hSne : S = []
        · subst hSne
          rw [List.mem_singleton, hSpr, ← wf.hfreq h hmem]
          rfl
        · exfalso
          obtain ⟨a, ha⟩ := List.exists_mem_of_ne_nil S hSne
          obtain ⟨hcnt, hlt⟩ := scope_S_cond wf hmem ha hSpb hSm
          have hin := condHdrs_complete hlt hcnt
          rw [hNe] at hin
          cases hin
    · simp
  · rw [if_neg hNe] at hv
    obtain ⟨sub, hsub, hveq⟩ := Option.map_eq_some'.mp hv
    subst hveq
    have hwfsub := condWF E hdrs pref m wf h hmem
    obtain ⟨hsubiff, hsubnd⟩ := IH _ _ _ _ hwfsub hsub
    constructor
    · intro pr
      constructor
      · intro hpr
        rcases List.mem_cons.mp hpr with rfl | hpr2
        · exact slice_base wf hmem
        · have htr := (slice_translate E hdrs pref m wf h hmem pr).mp
            ((hsubiff pr).mp hpr2)
          obtain ⟨S, hSnd, hSne, hSpb, hSm, hSpr⟩ := htr
          exact ⟨S, hSnd, hSpb, hSm, hSpr⟩
      · rintro ⟨S, hSnd, hSpb, hSm, hSpr⟩
        by_cases hSne : S = []
        · subst hSne
          rw [hSpr, ← wf.hfreq h hmem]
          exact List.mem_cons_self _ _
        · apply List.mem_cons_of_mem
          rw [hsubiff pr]
          exact (slice_translate E hdrs pref m wf h hmem pr).mpr
            ⟨S, hSnd, hSne, hSpb, hSm, hSpr⟩
    · rw [List.map_cons, List.nodup_cons]
      refine ⟨?_, hsubnd⟩
      intro hc
      obtain ⟨pr, hpr, hfst⟩ := List.mem_map.mp hc
      obtain ⟨S, hSnd, hSne, hSpb, hSm, hSpr⟩ :=
        (slice_translate E hdrs pref m wf h hmem pr).mp ((hsubiff pr).mp hpr)
      have hlen1 : (List.insertionSort (· ≤ ·) (pref ++ [h.item])).length =
          pref.length + 1 := by
        rw [(List.perm_insertionSort (· ≤ ·) (pref ++ [h.item])).length_eq]
        simp
      have hlen2 : pr.1.length = pref.length + 1 + S.length := by
        rw [hSpr]
        show (sortN (pref ++ h.item :: S)).length = _
        rw [(sortN_perm (pref ++ h.item :: S)).length_eq]
        simp
        omega
      rw [hfst] at hlen2
      dsimp only at hlen2
      have hS1 : 1 ≤ S.length := by
        cases S with
        | nil => exact absurd rfl hSne
        | cons a S2 => simp
      omega

theorem pbefore_asymm {hs : List Hdr} {a x : ℕ}
    (h1 : pbefore hs a x) (h2 : pbefore hs x a) : False := by
  obtain ⟨ha, hx, hak, hxk, hle1, hne⟩ := h1
  obtain ⟨hx2, ha2, hxk2, hak2, hle2, _⟩ := h2
  rw [hxk] at hxk2
  rw [hak] at hak2
  cases hxk2
  cases hak2
  have heq : ha = hx := antisymm hle1 hle2
  apply hne
  rw [← headerMap_item hak, ← headerMap_item hxk, heq]

/-- Two slices sharing the emitted itemset belong to the same header. -/
theorem slice_disjoint_fst {E : WDB} {hdrs : List Hdr} {pref : List ℕ} {m : ℕ}
    (wf : MinerWF E hdrs pref m) {h h2 : Hdr} (hm1 : h ∈ hdrs) (hm2 : h2 ∈ hdrs)
    {pr1 pr2 : List ℕ × ℕ} (s1 : sliceMem E hdrs h pref m pr1)
    (s2 : sliceMem E hdrs h2 pref m pr2) (hfst : pr1.1 = pr2.1) : h = h2 := by
  obtain ⟨S1, hnd1, hpb1, hm1s, hpr1⟩ := s1
  obtain ⟨S2, hnd2, hpb2, hm2s, hpr2⟩ := s2
  have hp1 : pr1.1 = sortN (pref ++ h.item :: S1) := by rw [hpr1]
  have hp2 : pr2.1 = sortN (pref ++ h2.item :: S2) := by rw [hpr2]
  have hperm : (pref ++ h.item :: S1).Perm (pref ++ h2.item :: S2) :=
    perm_of_sortN_eq (by rw [← hp1, ← hp2, hfst])
  have hperm2 : (h.item :: S1).Perm (h2.item :: S2) :=
    (List.perm_append_left_iff pref).mp hperm
  by_cases hii : h.item = h2.item
  · exact eq_of_item_eq wf.hnd hm1 hm2 hii
  · exfalso
    have hx2in : h2.item ∈ h.item :: S1 :=
      hperm2.mem_iff.mpr (List.mem_cons_self _ _)
    have hx1in : h.item ∈ h2.item :: S2 :=
      hperm2.mem_iff.mp (List.mem_cons_self _ _)
    have hb1 : pbefore hdrs h2.item h.item := by
      rcases List.mem_cons.mp hx2in with hc | hc
      · exact absurd hc.symm hii
      · exact hpb1 _ hc
    have hb2 : pbefore hdrs h.item h2.item := by
      rcases List.mem_cons.mp hx1in with hc | hc
      · exact absurd hc hii
      · exact hpb2 _ hc
    exact pbefore_asymm hb1 hb2

theorem seqCat_basic_chr (fuel : ℕ) (E : WDB) (hdrs : List Hdr) (pref : List ℕ)
    (m : ℕ) (wf : MinerWF E hdrs pref m)
    (IH : ∀ E2 hdrs2 pref2 out2, MinerWF E2 hdrs2 pref2 m →
      FP_Growth_basic fuel (construct_tree E2 hdrs2) hdrs2 pref2 m = some out2 →
      (∀ pr, pr ∈ out2 ↔ ∃ h2 ∈ hdrs2, sliceMem E2 hdrs2 h2 pref2 m pr) ∧
        (out2.map Prod.fst).Nodup) :
    ∀ (hs : List Hdr), (∀ h ∈ hs, h ∈ hdrs) → (hs.map Hdr.item).Nodup →
      ∀ out, seqCat (hs.map (basicStep fuel (construct_tree E hdrs) pref m)) = some out →
      (∀ pr, pr ∈ out ↔ ∃ h ∈ hs, sliceMem E hdrs h pref m pr) ∧
        (out.map Prod.fst).Nodup := by
  intro hs
  induction hs with
  | nil =>
      intro hsub hsnd out hrun
      simp only [List.map_nil, seqCat, Option.some.injEq] at hrun
      rw [← hrun]
      constructor
      · intro pr
        simp
      · simp
  | cons h hs ihs =>
      intro hsub hsnd out hrun
      rw [List.map_cons] at hrun
      obtain ⟨v, rest, hv, hrest, hout⟩ := seqCat_cons_some hrun
      obtain ⟨hviff, hvnd⟩ := basicStep_chr fuel E hdrs pref m wf h
        (hsub h (List.mem_cons_self _ _)) IH hv
      obtain ⟨hriff, hrnd⟩ := ihs (fun h2 hh2 => hsub h2 (List.mem_cons_of_mem _ hh2))
        (by
          rw [List.map_cons, List.nodup_cons] at hsnd
          exact hsnd.2) rest hrest
      subst hout
      constructor
      · intro pr
        rw [List.mem_append]
        constructor
        · rintro (hc | hc)
          · exact ⟨h, List.mem_cons_self _ _, (hviff pr).mp hc⟩
          · obtain ⟨h2, hh2, hs2⟩ := (hriff pr).mp hc
            exact ⟨h2, List.mem_cons_of_mem _ hh2, hs2⟩
        · rintro ⟨h2, hh2, hs2⟩
          rcases List.mem_cons.mp hh2 with rfl | hh2b
          · exact Or.inl ((hviff pr).mpr hs2)
          · exact Or.inr ((hriff pr).mpr ⟨h2, hh2b, hs2⟩)
      · rw [List.map_append, List.nodup_append]
        refine ⟨hvnd, hrnd, ?_⟩
        intro a hav hcr
        obtain ⟨pr1, hpr1, hfst1⟩ := List.mem_map.mp hav
        obtain ⟨pr2, hpr2, hfst2⟩ := List.mem_map.mp hcr
        obtain ⟨h2, hh2, hs2⟩ := (hriff pr2).mp hpr2
        have hs1 := (hviff pr1).mp hpr1
        have heq : h = h2 := slice_disjoint_fst wf (hsub h (List.mem_cons_self _ _))
          (hsub h2 (List.mem_cons_of_mem _ hh2)) hs1 hs2 (by rw [hfst1, hfst2])
        rw [List.map_cons, List.nodup_cons] at hsnd
        exact hsnd.1 (heq ▸ List.mem_map_of_mem Hdr.item hh2)

/-- Characterization of FP_Growth_basic: when the recursion completes, its
output is exactly one entry per slice of some header, with no repeated
itemset. -/
theorem FP_Growth_basic_chr (fuel : ℕ) :
    ∀ (E : WDB) (hdrs : List Hdr) (pref : List ℕ) (m : ℕ)
      (out : List (List ℕ × ℕ)), MinerWF E hdrs pref m →
      FP_Growth_basic fuel (construct_tree E hdrs) hdrs pref m = some out →
      (∀ pr, pr ∈ out ↔ ∃ h ∈ hdrs, sliceMem E hdrs h pref m pr) ∧
        (out.map Prod.fst).Nodup := by
  induction fuel with
  | zero =>
      intro E hdrs pref m out wf hrun
      simp [FP_Growth_basic] at hrun
  | succ fuel ih =>
      intro E hdrs pref m out wf hrun
      rw [FP_Growth_basic_succ] at hrun
      exact seqCat_basic_chr fuel E hdrs pref m wf
        (fun E2 hdrs2 pref2 out2 => ih E2 hdrs2 pref2 m out2)
        hdrs (fun h hh => hh) wf.hnd out hrun

/-- The enumerator emits exactly one pair per subsequence of the ancestor
list, all at the unchanged running sum, including the empty subsequence. -/
theorem hamm_search_mem (il : List ℕ) : ∀ (ul pat : List ℕ) (s m : ℕ),
    m ≤ s → ¬ pat = [] → ∀ pr,
    (pr ∈ hamm_search_optimized il ul s pat m ↔
      ∃ T, T.Sublist il ∧ pr = (sortN (pat ++ T), s)) := by
  induction il with
  | nil =>
      intro ul pat s m hm hpat pr
      rw [show hamm_search_optimized [] ul s pat m =
        [(sortN pat, s)] from by simp [hamm_search_optimized, write_output, hpat, sortN]]
      constructor
      · intro hpr
        rw [List.mem_singleton] at hpr
        exact ⟨[], List.Sublist.refl _, by rw [hpr, List.append_nil]⟩
      · rintro ⟨T, hT, hpr⟩
        rw [List.mem_singleton, hpr]
        have : T = [] := List.sublist_nil.mp hT
        rw [this, List.append_nil]
  | cons i rest ih =>
      intro ul pat s m hm hpat pr
      rw [show hamm_search_optimized (i :: rest) ul s pat m =
        hamm_search_optimized rest ul.tail s pat m ++
          hamm_search_optimized rest ul.tail s (pat ++ [i]) m from by
            simp [hamm_search_optimized, hm]]
      rw [List.mem_append, ih ul.tail pat s m hm hpat pr,
        ih ul.tail (pat ++ [i]) s m hm (by simp) pr]
      constructor
      · rintro (⟨T, hT, hpr⟩ | ⟨T, hT, hpr⟩)
        · exact ⟨T, hT.cons i, hpr⟩
        · refine ⟨i :: T, List.cons_sublist_cons.mpr hT, ?_⟩
          rw [hpr, List.append_assoc]
          rfl
      · rintro ⟨T, hT, hpr⟩
        rcases List.sublist_cons_iff.mp hT with h1 | ⟨r, hr, hrs⟩
        · exact Or.inl ⟨T, h1, hpr⟩
        · refine Or.inr ⟨r, hrs, ?_⟩
          rw [hpr, hr, List.append_assoc]
          rfl

/-- Like condWF, for the conditional scope as part_001 builds it: paths are
the non empty ancestor lists themselves and the prefix is unsorted. -/
theorem condWFopt (E : WDB) (hdrs : List Hdr) (pref : List ℕ) (m : ℕ)
    (wf : MinerWF E hdrs pref m) (h : Hdr) (hmem : h ∈ hdrs) :
    MinerWF ((collect h.item (construct_tree E hdrs)).filterMap
        (fun e => if e.1 = [] then none else some e))
      (List.insertionSort hdrLe (condHdrs m (collect h.item (construct_tree E hdrs))))
      (pref ++ [h.item]) m := by
  set es := collect h.item (construct_tree E hdrs) with hes
  have hperm : (List.insertionSort hdrLe (condHdrs m es)).Perm (condHdrs m es) :=
    List.perm_insertionSort hdrLe _
  have hinN : ∀ h2 ∈ List.insertionSort hdrLe (condHdrs m es), h2 ∈ condHdrs m es :=
    fun h2 hh2 => hperm.mem_iff.mp hh2
  have hentries := collect_construct_entries E hdrs wf.hE h.item
  refine ⟨wf.hm, ?_, ?_, ?_, ?_, ?_, ?_, ?_⟩
  · rw [(hperm.map Hdr.item).nodup_iff]
    exact condHdrs_item_nodup m es
  · intro h2 hh2
    exact (condHdrs_mem (hinN h2 hh2)).2.2
  · intro h2 hh2
    obtain ⟨hfr, hge, hlt⟩ := condHdrs_mem (hinN h2 hh2)
    rw [hfr, condCountM_eq_wsupport es (fun e he => (hentries e he).1) h2.item]
    rw [wsupport_filter_empty es [h2.item] (by simp)]
  · intro h2 hh2
    exact (condHdrs_mem (hinN h2 hh2)).2.1
  · intro pc hpc
    obtain ⟨e, he, hsome⟩ := List.mem_filterMap.mp hpc
    split at hsome
    · cases hsome
    · have hpe : e = pc := Option.some.inj hsome
      rw [← hpe]
      exact (hentries e he).1
  · exact scope_pat_nodup wf hmem
  · intro h2 hh2
    obtain ⟨hfr, hge, hlt⟩ := condHdrs_mem (hinN h2 hh2)
    have hpb := scope_cond_pos wf h h2.item (le_trans wf.hm (hfr ▸ hge))
    obtain ⟨ha, hx2, hak, hxk2, hle, hne⟩ := hpb
    have haitem : ha.item = h2.item := headerMap_item hak
    have hain : ha ∈ hdrs := headerMap_mem hak
    simp only [List.mem_append, List.mem_singleton]
    rintro (hc | hc)
    · exact wf.hdisj ha hain (haitem ▸ hc)
    · exact hne hc

/-- Support conversion for the part_001 conditional database. -/
theorem scope_cond_support_opt {E : WDB} {hdrs : List Hdr} {pref : List ℕ} {m : ℕ}
    (wf : MinerWF E hdrs pref m) {h : Hdr} (hmem : h ∈ hdrs) (S : List ℕ)
    (hne : ¬ S = []) (hS : ∀ a ∈ S, pbefore hdrs a h.item) :
    wsupport ((collect h.item (construct_tree E hdrs)).filterMap
        (fun e => if e.1 = [] then none else some e)) S = wsupport E (h.item :: S) := by
  rw [wsupport_filter_empty _ S hne]
  exact scope_bridge wf hmem S hS

/-- Counterpart of slice_translate for the part_001 conditional scope. -/
theorem slice_translate_opt (E : WDB) (hdrs : List Hdr) (pref : List ℕ) (m : ℕ)
    (wf : MinerWF E hdrs pref m) (h : Hdr) (hmem : h ∈ hdrs) (pr : List ℕ × ℕ) :
    (∃ h2 ∈ List.insertionSort hdrLe
        (condHdrs m (collect h.item (construct_tree E hdrs))),
      sliceMem ((collect h.item (construct_tree E hdrs)).filterMap
          (fun e => if e.1 = [] then none else some e))
        (List.insertionSort hdrLe (condHdrs m (collect h.item (construct_tree E hdrs))))
        h2 (pref ++ [h.item]) m pr) ↔
      (∃ S : List ℕ, S.Nodup ∧ ¬ S = [] ∧ (∀ a ∈ S, pbefore hdrs a h.item) ∧
        m ≤ wsupport E (h.item :: S) ∧
        pr = (sortN (pref ++ h.item :: S), wsupport E (h.item :: S))) := by
  set x := h.item with hx
  set es := collect x (construct_tree E hdrs) with hesdef
  set N := condHdrs m es with hN
  set sorted := List.insertionSort hdrLe N with hsorted
  have hwfsub := condWFopt E hdrs pref m wf h hmem
  have hsortednd : (sorted.map Hdr.item).Nodup := hwfsub.hnd
  have hsortform : ∀ (L : List ℕ), sortN ((pref ++ [x]) ++ L) = sortN (pref ++ x :: L) := by
    intro L
    rw [List.append_assoc]
    rfl
  constructor
  · rintro ⟨h2, hh2, T, hTnd, hTbef, hTm, hTpr⟩
    obtain ⟨hpb2, hfr2, hge2, hlt2⟩ := sorted_cond_facts wf h hh2
    have hTpb : ∀ b ∈ T, pbefore hdrs b x := by
      intro b hb
      obtain ⟨hb2, hz2, hbk, hzk, hble, hbne⟩ := hTbef b hb
      have hbin : hb2 ∈ sorted := headerMap_mem hbk
      have hbitem : hb2.item = b := headerMap_item hbk
      obtain ⟨hpb3, _, _, _⟩ := sorted_cond_facts wf h hbin
      rw [hbitem] at hpb3
      exact hpb3
    have hSpb : ∀ b ∈ h2.item :: T, pbefore hdrs b x := by
      intro b hb
      rcases List.mem_cons.mp hb with rfl | hb2
      · exact hpb2
      · exact hTpb b hb2
    have hSnd : (h2.item :: T).Nodup := by
      rw [List.nodup_cons]
      refine ⟨?_, hTnd⟩
      intro hc
      obtain ⟨_, _, _, _, _, hne⟩ := hTbef h2.item hc
      exact hne rfl
    have hsup : wsupport (es.filterMap (fun e => if e.1 = [] then none else some e))
        (h2.item :: T) = wsupport E (x :: h2.item :: T) :=
      scope_cond_support_opt wf hmem _ (by simp) hSpb
    refine ⟨h2.item :: T, hSnd, by simp, hSpb, ?_, ?_⟩
    · rw [← hsup]
      exact hTm
    · rw [hTpr, hsortform (h2.item :: T), hsup]
  · rintro ⟨S, hSnd, hSne, hSpb, hSm, hSpr⟩
    have hSinS : ∀ a ∈ S, ∃ ha2, headerMap sorted a = some ha2 := by
      intro a ha
      obtain ⟨hcnt, hlt⟩ := scope_S_cond wf hmem ha hSpb hSm
      have hmem2 : (⟨a, condCountM es a⟩ : Hdr) ∈ sorted := by
        rw [hsorted, (List.perm_insertionSort hdrLe N).mem_iff]
        exact condHdrs_complete hlt hcnt
      exact ⟨⟨a, condCountM es a⟩, headerMap_self hsortednd hmem2 hlt⟩
    obtain ⟨z, hz, hzmax⟩ := exists_pathLe_max sorted S hSnd hSne hSinS
    obtain ⟨hz2, hzk⟩ := hSinS z hz
    have hzin : hz2 ∈ sorted := headerMap_mem hzk
    have hzitem : hz2.item = z := headerMap_item hzk
    have hperm2 : S.Perm (z :: S.erase z) := List.perm_cons_erase hz
    have hTpb : ∀ b ∈ S.erase z, pbefore sorted b z := by
      intro b hb
      exact hzmax b (List.mem_of_mem_erase hb)
        (((List.Nodup.mem_erase_iff hSnd).mp hb).1)
    have hSpb2 : ∀ b ∈ z :: S.erase z, pbefore hdrs b x := by
      intro b hb
      exact hSpb b (hperm2.mem_iff.mpr hb)
    have hsup : wsupport (es.filterMap (fun e => if e.1 = [] then none else some e))
        (z :: S.erase z) = wsupport E (x :: z :: S.erase z) :=
      scope_cond_support_opt wf hmem _ (by simp) hSpb2
    have hw : wsupport E (x :: z :: S.erase z) = wsupport E (x :: S) :=
      wsupport_perm E (by exact (hperm2.cons x).symm)
    refine ⟨hz2, hzin, S.erase z, hSnd.erase z, ?_, ?_, ?_⟩
    · rw [hzitem]
      exact hTpb
    · rw [hzitem, hsup, hw]
      exact hSm
    · rw [hzitem, hsup, hw, hSpr, hsortform (z :: S.erase z)]
      rw [sortN_eq_of_perm ((hperm2.cons x).symm.append_left pref)]

theorem write_output_eq (pat : List ℕ) (s : ℕ) :
    write_output pat s = (sortN pat, s) := rfl

/-- Characterization of the linear path branch of FP_Growth_opt: together
with the head emission, it emits exactly the slices of its header. -/
theorem optStep_single_chr (E : WDB) (hdrs : List Hdr) (pref : List ℕ) (m : ℕ)
    (wf : MinerWF E hdrs pref m) (h : Hdr) (hmem : h ∈ hdrs) {e : List ℕ × ℕ}
    (hcol : collect h.item (construct_tree E hdrs) = [e]) (pr : List ℕ × ℕ) :
    (pr ∈ write_output (pref ++ [h.item]) h.freq ::
        hamm_search_optimized e.1 (e.1.map (fun _ => h.freq)) h.freq
          (pref ++ [h.item]) m) ↔
      sliceMem E hdrs h pref m pr := by
  set x := h.item with hx
  have he : e ∈ collect x (construct_tree E hdrs) := by
    rw [hcol]
    exact List.mem_singleton.mpr rfl
  have hend : e.1.Nodup := (collect_construct_entries E hdrs wf.hE x e he).1
  have hepb : ∀ a ∈ e.1, pbefore hdrs a x :=
    (collect_construct_entries E hdrs wf.hE x e he).2
  have hfe : h.freq = e.2 := by
    have h1 : wsupport (collect x (construct_tree E hdrs)) [] = wsupport E [x] :=
      scope_bridge wf hmem [] (by intro a ha; cases ha)
    rw [hcol] at h1
    rw [wf.hfreq h hmem, ← h1, wsupport_singleton]
    simp
  have hsupS : ∀ S : List ℕ, (∀ a ∈ S, a ∈ e.1) → (∀ a ∈ S, pbefore hdrs a x) →
      wsupport E (x :: S) = h.freq := by
    intro S hsub hpb
    rw [← scope_bridge wf hmem S hpb, hcol, wsupport_singleton, if_pos hsub, hfe]
  have hm2 : m ≤ h.freq := wf.hge h hmem
  have hpat : ¬ (pref ++ [x]) = [] := by simp
  rw [List.mem_cons, hamm_search_mem e.1 (e.1.map (fun _ => h.freq))
    (pref ++ [x]) h.freq m hm2 hpat pr]
  constructor
  · rintro (hc | ⟨T, hT, hpr⟩)
    · rw [hc, write_output_eq]
      exact slice_base wf hmem
    · have hTsub : ∀ a ∈ T, a ∈ e.1 := fun a ha => hT.subset ha
      have hTpb : ∀ a ∈ T, pbefore hdrs a x := fun a ha => hepb a (hTsub a ha)
      have hw := hsupS T hTsub hTpb
      refine ⟨T, hT.nodup hend, hTpb, by rw [hw]; exact hm2, ?_⟩
      rw [hpr, hw]
      have : (pref ++ [x]) ++ T = pref ++ x :: T := by
        rw [List.append_assoc]
        rfl
      rw [this]
  · rintro ⟨S, hSnd, hSpb, hSm, hSpr⟩
    have hSsub : ∀ a ∈ S, a ∈ e.1 := by
      intro a ha
      by_contra hc
      have h1 : wsupport (collect x (construct_tree E hdrs)) S = wsupport E (x :: S) :=
        scope_bridge wf hmem S hSpb
      rw [hcol, wsupport_singleton, if_neg (fun hall => hc (hall a ha))] at h1
      rw [← h1] at hSm
      have := wf.hm
      omega
    have hw := hsupS S hSsub hSpb
    set T := e.1.filter (fun a => decide (a ∈ S)) with hT
    have hTsl : T.Sublist e.1 := List.filter_sublist e.1
    have hTperm : T.Perm S := by
      rw [List.perm_ext_iff_of_nodup (hTsl.nodup hend) hSnd]
      intro a
      rw [hT, List.mem_filter]
      constructor
      · rintro ⟨_, h2⟩
        simpa using h2
      · intro h2
        exact ⟨hSsub a h2, by simpa using h2⟩
    refine Or.inr ⟨T, hTsl, ?_⟩
    rw [hSpr, hw]
    have h3 : (pref ++ [x]) ++ T = pref ++ x :: T := by
      rw [List.append_assoc]
      rfl
    rw [h3]
    rw [sortN_eq_of_perm ((hTperm.cons x).append_left pref)]

/-- Characterization of the general branch of FP_Growth_opt. -/
theorem optStep_general_chr (fuel : ℕ) (E : WDB) (hdrs : List Hdr) (pref : List ℕ)
    (m : ℕ) (wf : MinerWF E hdrs pref m) (h : Hdr) (hmem : h ∈ hdrs)
    (IH : ∀ E2 hdrs2 pref2 out2, MinerWF E2 hdrs2 pref2 m →
      FP_Growth_opt fuel (construct_tree E2 hdrs2) hdrs2 pref2 m = some out2 →
      (∀ pr, pr ∈ out2 ↔ ∃ h2 ∈ hdrs2, sliceMem E2 hdrs2 h2 pref2 m pr))
    (esv : WDB) (hcol : collect h.item (construct_tree E hdrs) = esv)
    {v : List (List ℕ × ℕ)}
    (hv : (if condHdrs m esv = []
           then some [write_output (pref ++ [h.item]) h.freq]
           else (FP_Growth_opt fuel
              (construct_tree (esv.filterMap (fun e => if e.1 = [] then none else some e))
                (List.insertionSort hdrLe (condHdrs m esv)))
              (List.insertionSort hdrLe (condHdrs m esv)) (pref ++ [h.item]) m).map
              (fun sub => write_output (pref ++ [h.item]) h.freq :: sub)) = some v) :
    ∀ pr, pr ∈ v ↔ sliceMem E hdrs h pref m pr := by
  rw [← hcol] at hv
  by_cases hNe : condHdrs m (collect h.item (construct_tree E hdrs)) = []
  · rw [if_pos hNe] at hv
    have hveq : v = [write_output (pref ++ [h.item]) h.freq] :=
      (Option.some.inj hv).symm
    subst hveq
    intro pr
    constructor
    · intro hpr
      rw [List.mem_singleton] at hpr
      rw [hpr, write_output_eq]
      exact slice_base wf hmem
    · rintro ⟨S, hSnd, hSpb, hSm, hSpr⟩
      by_cases hSne : S = []
      · subst hSne
        rw [List.mem_singleton, hSpr, ← wf.hfreq h hmem, write_output_eq]
      · exfalso
        obtain ⟨a, ha⟩ := List.exists_mem_of_ne_nil S hSne
        obtain ⟨hcnt, hlt⟩ := scope_S_cond wf hmem ha hSpb hSm
        have hin := condHdrs_complete hlt hcnt
        rw [hNe] at hin
        cases hin
  · rw [if_neg hNe] at hv
    obtain ⟨sub, hsub, hveq⟩ := Option.map_eq_some'.mp hv
    subst hveq
    have hwfsub := condWFopt E hdrs pref m wf h hmem
    have hsubiff := IH _ _ _ _ hwfsub hsub
    intro pr
    constructor
    · intro hpr
      rcases List.mem_cons.mp hpr with rfl | hpr2
      · rw [write_output_eq]
        exact slice_base wf hmem
      · obtain ⟨S, hSnd, hSne, hSpb, hSm, hSpr⟩ :=
          (slice_translate_opt E hdrs pref m wf h hmem pr).mp
            ((hsubiff pr).mp hpr2)
        exact ⟨S, hSnd, hSpb, hSm, hSpr⟩
    · rintro ⟨S, hSnd, hSpb, hSm, hSpr⟩
      by_cases hSne : S = []
      · subst hSne
        rw [hSpr, ← wf.hfreq h hmem, write_output_eq]
        exact List.mem_cons_self _ _
      · apply List.mem_cons_of_mem
        rw [hsubiff pr]
        exact (slice_translate_opt E hdrs pref m wf h hmem pr).mpr
          ⟨S, hSnd, hSne, hSpb, hSm, hSpr⟩

/-- Characterization of the output of one header of FP_Growth_opt. -/
theorem optStep_chr (fuel : ℕ) (E : WDB) (hdrs : List Hdr) (pref : List ℕ)
    (m : ℕ) (wf : MinerWF E hdrs pref m) (h : Hdr) (hmem : h ∈ hdrs)
    (IH : ∀ E2 hdrs2 pref2 out2, MinerWF E2 hdrs2 pref2 m →
      FP_Growth_opt fuel (construct_tree E2 hdrs2) hdrs2 pref2 m = some out2 →
      (∀ pr, pr ∈ out2 ↔ ∃ h2 ∈ hdrs2, sliceMem E2 hdrs2 h2 pref2 m pr))
    {v : List (List ℕ × ℕ)}
    (hv : optStep fuel (construct_tree E hdrs) pref m h = some v) :
    ∀ pr, pr ∈ v ↔ sliceMem E hdrs h pref m pr := by
  rcases hcol : collect h.item (construct_tree E hdrs) with _ | ⟨e, tail⟩
  · have hun : optStep fuel (construct_tree E hdrs) pref m h =
        (if condHdrs m ([] : WDB) = []
         then some [write_output (pref ++ [h.item]) h.freq]
         else (FP_Growth_opt fuel
            (construct_tree (([] : WDB).filterMap
              (fun e => if e.1 = [] then none else some e))
              (List.insertionSort hdrLe (condHdrs m ([] : WDB))))
            (List.insertionSort hdrLe (condHdrs m ([] : WDB))) (pref ++ [h.item]) m).map
            (fun sub => write_output (pref ++ [h.item]) h.freq :: sub)) := by
      simp only [optStep, hcol]
    rw [hun] at hv
    exact optStep_general_chr fuel E hdrs pref m wf h hmem IH [] hcol hv
  · rcases tail with _ | ⟨e2, tail2⟩
    · have hun : optStep fuel (construct_tree E hdrs) pref m h =
          some (write_output (pref ++ [h.item]) h.freq ::
            hamm_search_optimized e.1 (e.1.map (fun _ => h.freq)) h.freq
              (pref ++ [h.item]) m) := by
        simp only [optStep, hcol]
      rw [hun] at hv
      have hveq : v = write_output (pref ++ [h.item]) h.freq ::
          hamm_search_optimized e.1 (e.1.map (fun _ => h.freq)) h.freq
            (pref ++ [h.item]) m := (Option.some.inj hv).symm
      subst hveq
      exact optStep_single_chr E hdrs pref m wf h hmem hcol
    · have hun : optStep fuel (construct_tree E hdrs) pref m h =
          (if condHdrs m (e :: e2 :: tail2) = []
           then some [write_output (pref ++ [h.item]) h.freq]
           else (FP_Growth_opt fuel
              (construct_tree ((e :: e2 :: tail2).filterMap
                (fun e => if e.1 = [] then none else some e))
                (List.insertionSort hdrLe (condHdrs m (e :: e2 :: tail2))))
              (List.insertionSort hdrLe (condHdrs m (e :: e2 :: tail2)))
              (pref ++ [h.item]) m).map
              (fun sub => write_output (pref ++ [h.item]) h.freq :: sub)) := by
        simp only [optStep, hcol]
      rw [hun] at hv
      exact optStep_general_chr fuel E hdrs pref m wf h hmem IH (e :: e2 :: tail2) hcol hv

theorem seqCat_opt_chr (fuel : ℕ) (E : WDB) (hdrs : List Hdr) (pref : List ℕ)
    (m : ℕ) (wf : MinerWF E hdrs pref m)
    (IH : ∀ E2 hdrs2 pref2 out2, MinerWF E2 hdrs2 pref2 m →
      FP_Growth_opt fuel (construct_tree E2 hdrs2) hdrs2 pref2 m = some out2 →
      (∀ pr, pr ∈ out2 ↔ ∃ h2 ∈ hdrs2, sliceMem E2 hdrs2 h2 pref2 m pr)) :
    ∀ (hs : List Hdr), (∀ h ∈ hs, h ∈ hdrs) →
      ∀ out, seqCat (hs.map (optStep fuel (construct_tree E hdrs) pref m)) = some out →
      ∀ pr, pr ∈ out ↔ ∃ h ∈ hs, sliceMem E hdrs h pref m pr := by
  intro hs
  induction hs with
  | nil =>
      intro hsub out hrun
      simp only [List.map_nil, seqCat, Option.some.injEq] at hrun
      rw [← hrun]
      intro pr
      simp
  | cons h hs ihs =>
      intro hsub out hrun
      rw [List.map_cons] at hrun
      obtain ⟨v, rest, hv, hrest, hout⟩ := seqCat_cons_some hrun
      have hviff := optStep_chr fuel E hdrs pref m wf h
        (hsub h (List.mem_cons_self _ _)) IH hv
      have hriff := ihs (fun h2 hh2 => hsub h2 (List.mem_cons_of_mem _ hh2)) rest hrest
      subst hout
      intro pr
      rw [List.mem_append]
      constructor
      · rintro (hc | hc)
        · exact ⟨h, List.mem_cons_self _ _, (hviff pr).mp hc⟩
        · obtain ⟨h2, hh2, hs2⟩ := (hriff pr).mp hc
          exact ⟨h2, List.mem_cons_of_mem _ hh2, hs2⟩
      · rintro ⟨h2, hh2, hs2⟩
        rcases List.mem_cons.mp hh2 with rfl | hh2b
        · exact Or.inl ((hviff pr).mpr hs2)
        · exact Or.inr ((hriff pr).mpr ⟨h2, hh2b, hs2⟩)

/-- Characterization of FP_Growth_opt: when the recursion completes, its
output contains exactly the slices of the headers (possibly with repeated
entries). -/
theorem FP_Growth_opt_chr (fuel : ℕ) :
    ∀ (E : WDB) (hdrs : List Hdr) (pref : List ℕ) (m : ℕ)
      (out : List (List ℕ × ℕ)), MinerWF E hdrs pref m →
      FP_Growth_opt fuel (construct_tree E hdrs) hdrs pref m = some out →
      ∀ pr, pr ∈ out ↔ ∃ h ∈ hdrs, sliceMem E hdrs h pref m pr := by
  induction fuel with
  | zero =>
      intro E hdrs pref m out wf hrun
      simp [FP_Growth_opt] at hrun
  | succ fuel ih =>
      intro E hdrs pref m out wf hrun
      rw [FP_Growth_opt_succ] at hrun
      exact seqCat_opt_chr fuel E hdrs pref m wf
        (fun E2 hdrs2 pref2 out2 => ih E2 hdrs2 pref2 m out2)
        hdrs (fun h hh => hh) out hrun

/-- The slice description of a whole scope coincides with its canonical
description. -/
theorem slices_iff_canon (E : WDB) (hdrs : List Hdr) (pref : List ℕ) (m : ℕ)
    (wf : MinerWF E hdrs pref m) (pr : List ℕ × ℕ) :
    (∃ h ∈ hdrs, sliceMem E hdrs h pref m pr) ↔ canonMem E hdrs pref m pr := by
  constructor
  · rintro ⟨h, hmem, S, hSnd, hSpb, hSm, hSpr⟩
    refine ⟨h.item :: S, ?_, by simp, ?_, hSm, hSpr⟩
    · rw [List.nodup_cons]
      refine ⟨?_, hSnd⟩
      intro hc
      obtain ⟨_, _, _, _, _, hne⟩ := hSpb h.item hc
      exact hne rfl
    · intro a ha
      rcases List.mem_cons.mp ha with rfl | ha2
      · exact List.mem_map_of_mem Hdr.item hmem
      · obtain ⟨ha2h, _, hak, _, _, _⟩ := hSpb a ha2
        have := List.mem_map_of_mem Hdr.item (headerMap_mem hak)
        rw [headerMap_item hak] at this
        exact this
  · rintro ⟨S, hSnd, hSne, hSit, hSm, hSpr⟩
    have hSinS : ∀ a ∈ S, ∃ ha2, headerMap hdrs a = some ha2 := by
      intro a ha
      obtain ⟨ha2, hmem2, hitem⟩ := List.mem_map.mp (hSit a ha)
      exact ⟨ha2, hitem ▸ headerMap_self wf.hnd hmem2 (wf.hcap ha2 hmem2)⟩
    obtain ⟨z, hz, hzmax⟩ := exists_pathLe_max hdrs S hSnd hSne hSinS
    obtain ⟨hz2, hzk⟩ := hSinS z hz
    have hzin : hz2 ∈ hdrs := headerMap_mem hzk
    have hzitem : hz2.item = z := headerMap_item hzk
    have hperm2 : S.Perm (z :: S.erase z) := List.perm_cons_erase hz
    have hw : wsupport E (z :: S.erase z) = wsupport E S :=
      wsupport_perm E hperm2.symm
    refine ⟨hz2, hzin, S.erase z, hSnd.erase z, ?_, ?_, ?_⟩
    · intro b hb
      rw [hzitem]
      exact hzmax b (List.mem_of_mem_erase hb)
        (((List.Nodup.mem_erase_iff hSnd).mp hb).1)
    · rw [hzitem, hw]
      exact hSm
    · rw [hzitem, hw, hSpr, sortN_eq_of_perm (hperm2.append_left pref)]

theorem support_cons (t : List ℕ) (db : List (List ℕ)) (S : List ℕ) :
    support (t :: db) S = (if ∀ a ∈ S, a ∈ t then 1 else 0) + support db S := by
  unfold support
  rw [List.countP_cons]
  split
  · next hc =>
      rw [if_pos (by simpa using hc)]
      ring
  · next hc =>
      rw [if_neg (by simpa using hc)]
      ring

theorem wsupport_unit (db : List (List ℕ)) (S : List ℕ) :
    wsupport (db.map (fun t => (t, 1))) S = support db S := by
  induction db with
  | nil => rfl
  | cons t db ih =>
      rw [List.map_cons, wsupport_cons, support_cons, ih]

theorem support_anti (db : List (List ℕ)) {S1 S2 : List ℕ}
    (h : ∀ a ∈ S1, a ∈ S2) : support db S2 ≤ support db S1 := by
  induction db with
  | nil => exact le_refl _
  | cons t db ih =>
      rw [support_cons, support_cons]
      have : (if ∀ a ∈ S2, a ∈ t then 1 else 0) ≤ (if ∀ a ∈ S1, a ∈ t then 1 else 0) := by
        split
        · next h2 => rw [if_pos (fun a ha => h2 a (h a ha))]
        · exact Nat.zero_le _
      omega

theorem globalFreq_pos_iff (db : List (List ℕ)) (i : ℕ) :
    1 ≤ globalFreq db i ↔ ∃ t ∈ db, i ∈ t := by
  induction db with
  | nil => simp [globalFreq]
  | cons t db ih =>
      unfold globalFreq at *
      rw [List.map_cons, List.sum_cons]
      constructor
      · intro h1
        by_cases hc : i ∈ t
        · exact ⟨t, List.mem_cons_self _ _, hc⟩
        · rw [List.count_eq_zero_of_not_mem hc, Nat.zero_add] at h1
          obtain ⟨t2, ht2, hi2⟩ := ih.mp h1
          exact ⟨t2, List.mem_cons_of_mem _ ht2, hi2⟩
      · rintro ⟨t2, ht2, hi2⟩
        rcases List.mem_cons.mp ht2 with rfl | ht3
        · have := List.count_pos_iff.mpr hi2
          omega
        · have := ih.mpr ⟨t2, ht3, hi2⟩
          omega

theorem globalFreq_eq_support (db : List (List ℕ)) (hnd : ∀ t ∈ db, t.Nodup)
    (i : ℕ) : globalFreq db i = support db [i] := by
  induction db with
  | nil => rfl
  | cons t db ih =>
      unfold globalFreq at *
      rw [List.map_cons, List.sum_cons, support_cons,
        ih (fun t2 ht2 => hnd t2 (List.mem_cons_of_mem _ ht2))]
      congr 1
      by_cases hc : i ∈ t
      · rw [List.count_eq_one_of_mem (hnd t (List.mem_cons_self _ _)) hc,
          if_pos (by simpa using hc)]
      · rw [List.count_eq_zero_of_not_mem hc, if_neg (by simpa using hc)]

theorem filterMap_hdr_nodup (g : ℕ → Option Hdr)
    (hg : ∀ i h2, g i = some h2 → h2.item = i) (l : List ℕ) (hl : l.Nodup) :
    ((l.filterMap g).map Hdr.item).Nodup := by
  induction l with
  | nil => simp
  | cons a l ih =>
      have hal : a ∉ l := (List.nodup_cons.mp hl).1
      simp only [List.filterMap_cons]
      cases hga : g a with
      | none => exact ih hl.of_cons
      | some hd =>
          simp only [List.map_cons, List.nodup_cons]
          refine ⟨?_, ih hl.of_cons⟩
          intro hc
          obtain ⟨h2, h3, h4⟩ := List.mem_map.mp hc
          obtain ⟨b, hb, hbsome⟩ := List.mem_filterMap.mp h3
          rw [hg a hd hga] at h4
          rw [hg b h2 hbsome] at h4
          exact hal (h4 ▸ hb)

theorem basicHeaders_item_nodup (lines : List (List ℕ)) (m : ℕ) :
    ((basicHeaders lines m).map Hdr.item).Nodup := by
  unfold basicHeaders remove_infrequent_items
  have h1 := filterMap_hdr_nodup
    (fun i => if 1 ≤ globalFreq lines i then some ⟨i, globalFreq lines i⟩ else none)
    (by intro i h2 hsome
        dsimp only at hsome
        split at hsome
        · cases hsome; rfl
        · cases hsome)
    (List.range 1000) (List.nodup_range 1000)
  have h2 := ((List.perm_insertionSort topLe
    ((List.range 1000).filterMap (fun i =>
      if 1 ≤ globalFreq lines i then some ⟨i, globalFreq lines i⟩ else none))).map
      Hdr.item).nodup_iff.mpr h1
  exact ((List.filter_sublist _).map Hdr.item).nodup h2

theorem basicHeaders_mem {lines : List (List ℕ)} {m : ℕ} {h : Hdr} :
    h ∈ basicHeaders lines m ↔
      (h.item < 1000 ∧ h.freq = globalFreq lines h.item ∧ 1 ≤ h.freq ∧ m ≤ h.freq) := by
  unfold basicHeaders remove_infrequent_items
  rw [List.mem_filter, (List.perm_insertionSort topLe _).mem_iff, List.mem_filterMap]
  constructor
  · rintro ⟨⟨i, hi, hsome⟩, hge⟩
    split at hsome
    · next hpos =>
        cases hsome
        exact ⟨List.mem_range.mp hi, rfl, hpos, by simpa using hge⟩
    · cases hsome
  · rintro ⟨hlt, hfr, hpos, hge⟩
    cases h with
    | mk i f =>
        dsimp only at hlt hfr hpos hge
        subst hfr
        refine ⟨⟨i, List.mem_range.mpr hlt, ?_⟩, by simpa using hge⟩
        rw [if_pos hpos]

theorem basicHeaders_lookup (lines : List (List ℕ)) (m i : ℕ) (hi : i < 1000)
    (h1 : 1 ≤ globalFreq lines i) (hm : m ≤ globalFreq lines i) :
    headerMap (basicHeaders lines m) i = some ⟨i, globalFreq lines i⟩ := by
  have hmem : (⟨i, globalFreq lines i⟩ : Hdr) ∈ basicHeaders lines m :=
    basicHeaders_mem.mpr ⟨hi, rfl, h1, hm⟩
  exact headerMap_self (basicHeaders_item_nodup lines m) hmem hi

theorem basicHeaders_isSome (lines : List (List ℕ)) (m i : ℕ) :
    (headerMap (basicHeaders lines m) i).isSome = true ↔
      (i < 1000 ∧ 1 ≤ globalFreq lines i ∧ m ≤ globalFreq lines i) := by
  constructor
  · intro hs
    obtain ⟨hd, hh⟩ := Option.isSome_iff_exists.mp hs
    have hmem := headerMap_mem hh
    have hit := headerMap_item hh
    obtain ⟨hlt, hfr, hpos, hge⟩ := basicHeaders_mem.mp hmem
    rw [hit] at hlt hfr
    exact ⟨hlt, hfr ▸ hpos, hfr ▸ hge⟩
  · rintro ⟨hlt, hpos, hge⟩
    rw [basicHeaders_lookup lines m i hlt hpos hge]
    rfl

theorem globalFreq_ge_one {lines : List (List ℕ)} {l : List ℕ}
    (hl : l ∈ lines) {i : ℕ} (hi : i ∈ l) : 1 ≤ globalFreq lines i := by
  unfold globalFreq
  have h1 : l.count i ∈ lines.map (fun l2 => l2.count i) :=
    List.mem_map_of_mem _ hl
  have h2 : l.count i ≤ (lines.map (fun l2 => l2.count i)).sum :=
    List.single_le_sum (fun x _ => Nat.zero_le x) _ h1
  have h3 : 1 ≤ l.count i := List.count_pos_iff.mpr hi
  omega

theorem basicPrep_eq (lines : List (List ℕ)) (m : ℕ) (l : List ℕ)
    (hl : l ∈ lines) :
    sortFilter (basicHeaders lines m) l = basicPrep lines m l := by
  have hpred : ∀ i ∈ l,
      ((decide (i < 1000)) && decide (m ≤ globalFreq lines i)) =
        (headerMap (basicHeaders lines m) i).isSome := by
    intro i hi
    have h1 := globalFreq_ge_one hl hi
    by_cases hc : i < 1000 ∧ m ≤ globalFreq lines i
    · rw [(basicHeaders_isSome lines m i).mpr ⟨hc.1, h1, hc.2⟩]
      simp [hc.1, hc.2]
    · have hns : ¬ (headerMap (basicHeaders lines m) i).isSome = true := by
        intro hs
        obtain ⟨hlt, _, hge⟩ := (basicHeaders_isSome lines m i).mp hs
        exact hc ⟨hlt, hge⟩
      rw [Bool.not_eq_true] at hns
      rw [hns]
      rcases Decidable.not_and_iff_or_not.mp hc with hc1 | hc2
      · simp [hc1]
      · simp [hc2]
  have hperm : (sortFilter (basicHeaders lines m) l).Perm (basicPrep lines m l) := by
    refine (sortFilter_perm _ l).trans ?_
    unfold basicPrep
    have h2 : l.filter (fun i => decide (i < 1000) && decide (m ≤ globalFreq lines i)) =
        l.filter (fun i => (headerMap (basicHeaders lines m) i).isSome) :=
      List.filter_congr hpred
    rw [← h2]
    exact (List.Perm.filter _ (List.perm_insertionSort (txLe (globalFreq lines)) l)).symm
  have hshape : ∀ u ∈ List.insertionSort pathLe
      (l.filterMap (headerMap (basicHeaders lines m))), u.freq = globalFreq lines u.item := by
    intro u hu
    rw [(List.perm_insertionSort pathLe _).mem_iff] at hu
    obtain ⟨i, hi, hsome⟩ := List.mem_filterMap.mp hu
    exact (basicHeaders_mem.mp (headerMap_mem hsome)).2.1
  have hs1 : (sortFilter (basicHeaders lines m) l).Sorted (txLe (globalFreq lines)) := by
    unfold sortFilter
    rw [List.Sorted, List.pairwise_map]
    refine List.Pairwise.imp_of_mem ?_
      (List.sorted_insertionSort pathLe (l.filterMap (headerMap (basicHeaders lines m))))
    intro a b ha hb hab
    have hfa := hshape a ha
    have hfb := hshape b hb
    unfold pathLe at hab
    unfold txLe
    omega
  have hs2 : (basicPrep lines m l).Sorted (txLe (globalFreq lines)) := by
    unfold basicPrep
    exact (List.sorted_insertionSort (txLe (globalFreq lines)) l).filter _
  exact List.eq_of_perm_of_sorted hperm hs1 hs2

theorem basicTree_eq (lines : List (List ℕ)) (m : ℕ) :
    basicTree lines m =
      construct_tree (lines.map (fun t => (t, 1))) (basicHeaders lines m) := by
  unfold basicTree construct_tree
  rw [List.foldl_map, List.foldl_map]
  refine List.foldl_ext _ _ _ ?_
  intro cs t ht
  rw [basicPrep_eq lines m t ht]

theorem basicWF (lines : List (List ℕ)) (m : ℕ) (hm : 1 ≤ m)
    (hnd : ∀ t ∈ lines, t.Nodup) :
    MinerWF (lines.map (fun t => (t, 1))) (basicHeaders lines m) [] m := by
  refine ⟨hm, basicHeaders_item_nodup lines m, ?_, ?_, ?_, ?_, List.nodup_nil, ?_⟩
  · intro h hmem
    exact (basicHeaders_mem.mp hmem).1
  · intro h hmem
    obtain ⟨_, hfr, _, _⟩ := basicHeaders_mem.mp hmem
    rw [hfr, wsupport_unit, ← globalFreq_eq_support lines hnd]
  · intro h hmem
    exact (basicHeaders_mem.mp hmem).2.2.2
  · intro pc hpc
    obtain ⟨t, ht, rfl⟩ := List.mem_map.mp hpc
    exact hnd t ht
  · intro h _ hc
    cases hc

theorem basicCanon (lines : List (List ℕ)) (m : ℕ)
    (hnd : ∀ t ∈ lines, t.Nodup)
    (hcap : ∀ t ∈ lines, ∀ i ∈ t, i < 1000) (pr : List ℕ × ℕ) :
    canonMem (lines.map (fun t => (t, 1))) (basicHeaders lines m) [] m pr ↔
      canonOut lines m pr := by
  constructor
  · rintro ⟨S, hSnd, hSne, hSit, hSm, hSpr⟩
    refine ⟨S, hSnd, hSne, ?_, ?_, ?_⟩
    · intro a ha
      obtain ⟨hd, hmem, hitem⟩ := List.mem_map.mp (hSit a ha)
      obtain ⟨_, hfr, hpos, _⟩ := basicHeaders_mem.mp hmem
      rw [hitem] at hfr
      exact (globalFreq_pos_iff lines a).mp (hfr ▸ hpos)
    · rw [← wsupport_unit]
      exact hSm
    · rw [hSpr, wsupport_unit, List.nil_append]
  · rintro ⟨S, hSnd, hSne, hSoc, hSm, hSpr⟩
    refine ⟨S, hSnd, hSne, ?_, ?_, ?_⟩
    · intro a ha
      have hpos : 1 ≤ globalFreq lines a := (globalFreq_pos_iff lines a).mpr (hSoc a ha)
      have hge : m ≤ globalFreq lines a := by
        rw [globalFreq_eq_support lines hnd]
        refine le_trans hSm (support_anti lines ?_)
        intro b hb
        rw [List.mem_singleton] at hb
        rw [hb]
        exact ha
      have hlt : a < 1000 := by
        obtain ⟨t, ht, hat⟩ := hSoc a ha
        exact hcap t ht a hat
      have hmem : (⟨a, globalFreq lines a⟩ : Hdr) ∈ basicHeaders lines m :=
        basicHeaders_mem.mpr ⟨hlt, rfl, hpos, hge⟩
      exact List.mem_map_of_mem Hdr.item hmem
    · rw [wsupport_unit]
      exact hSm
    · rw [hSpr, wsupport_unit, List.nil_append]

/-- Full characterization of a terminating Hamm.cpp run on a duplicate free
database of small items: the output is exactly the set of non empty frequent
itemsets at their exact supports, without repetition. -/
theorem basicRun_chr (lines : List (List ℕ)) (m fuel : ℕ) (out : List (List ℕ × ℕ))
    (hm : 1 ≤ m) (hnd : ∀ t ∈ lines, t.Nodup)
    (hcap : ∀ t ∈ lines, ∀ i ∈ t, i < 1000)
    (hrun : basicRun fuel lines m = some out) :
    (∀ pr, pr ∈ out ↔ canonOut lines m pr) ∧ (out.map Prod.fst).Nodup := by
  have wf := basicWF lines m hm hnd
  unfold basicRun at hrun
  rw [basicTree_eq] at hrun
  obtain ⟨hiff, hndout⟩ := FP_Growth_basic_chr fuel _ _ _ _ _ wf hrun
  refine ⟨?_, hndout⟩
  intro pr
  rw [hiff pr, slices_iff_canon _ _ _ _ wf, basicCanon lines m hnd hcap]

theorem le_foldr_max {l : List ℕ} {a : ℕ} (ha : a ∈ l) : a ≤ l.foldr max 0 := by
  induction l with
  | nil => cases ha
  | cons b l ih =>
      rcases List.mem_cons.mp ha with rfl | ha2
      · exact le_max_left _ _
      · exact le_trans (ih ha2) (le_max_right _ _)

theorem le_maxId {txs : List (List ℕ)} {t : List ℕ} (ht : t ∈ txs) {i : ℕ}
    (hi : i ∈ t) : i ≤ maxId txs := by
  unfold maxId
  exact le_trans (le_foldr_max hi)
    (le_foldr_max (List.mem_map_of_mem (fun l => l.foldr max 0) ht))

theorem optHeaders_item_nodup (txs : List (List ℕ)) (m : ℕ) :
    ((optHeaders txs m).map Hdr.item).Nodup := by
  unfold optHeaders remove_infrequent_items
  have h1 := filterMap_hdr_nodup
    (fun i =>
      let f := globalFreq txs i
      if 1 ≤ f ∧ m ≤ f then some ⟨i, f⟩ else none)
    (by intro i h2 hsome
        dsimp only at hsome
        split at hsome
        · cases hsome; rfl
        · cases hsome)
    (List.range (maxId txs + 1)) (List.nodup_range _)
  have h2 := ((List.perm_insertionSort hdrLe
    ((List.range (maxId txs + 1)).filterMap (fun i =>
      let f := globalFreq txs i
      if 1 ≤ f ∧ m ≤ f then some ⟨i, f⟩ else none))).map
      Hdr.item).nodup_iff.mpr h1
  exact ((List.filter_sublist _).map Hdr.item).nodup h2

theorem optHeaders_mem {txs : List (List ℕ)} {m : ℕ} {h : Hdr} :
    h ∈ optHeaders txs m ↔
      (h.item ≤ maxId txs ∧ h.freq = globalFreq txs h.item ∧
        1 ≤ h.freq ∧ m ≤ h.freq) := by
  unfold optHeaders remove_infrequent_items
  rw [List.mem_filter, (List.perm_insertionSort hdrLe _).mem_iff, List.mem_filterMap]
  constructor
  · rintro ⟨⟨i, hi, hsome⟩, hge⟩
    dsimp only at hsome
    split at hsome
    · next hpos =>
        cases hsome
        exact ⟨Nat.lt_succ_iff.mp (List.mem_range.mp hi), rfl, hpos.1, hpos.2⟩
    · cases hsome
  · rintro ⟨hle, hfr, hpos, hge⟩
    cases h with
    | mk i f =>
        dsimp only at hle hfr hpos hge
        subst hfr
        refine ⟨⟨i, List.mem_range.mpr (Nat.lt_succ_of_le hle), ?_⟩, by simpa using hge⟩
        dsimp only
        rw [if_pos ⟨hpos, hge⟩]

theorem wsupport_optPaths (txs : List (List ℕ)) (m : ℕ) (S : List ℕ)
    (hne : ¬ S = []) (hp : ∀ a ∈ S, m ≤ globalFreq txs a) :
    wsupport (optPaths txs m) S = support txs S := by
  have key : ∀ (p : ℕ → Bool) (db : List (List ℕ)), (∀ a ∈ S, p a = true) →
      wsupport (db.filterMap (fun u =>
        if u.filter p = [] then none else some (u.filter p, 1))) S = support db S := by
    intro p db hpa
    induction db with
    | nil => rfl
    | cons t db ih =>
        by_cases hemp : t.filter p = []
        · have hstep : ((t :: db).filterMap (fun u =>
              if u.filter p = [] then none else some (u.filter p, 1))) =
              db.filterMap (fun u =>
                if u.filter p = [] then none else some (u.filter p, 1)) := by
            rw [List.filterMap_cons, if_pos hemp]
          rw [hstep, ih, support_cons, if_neg]
          · omega
          · intro hall
            obtain ⟨a, ha⟩ := List.exists_mem_of_ne_nil S hne
            have h3 : a ∈ t.filter p := List.mem_filter.mpr ⟨hall a ha, hpa a ha⟩
            rw [hemp] at h3
            cases h3
        · have hstep : ((t :: db).filterMap (fun u =>
              if u.filter p = [] then none else some (u.filter p, 1))) =
              (t.filter p, 1) :: db.filterMap (fun u =>
                if u.filter p = [] then none else some (u.filter p, 1)) := by
            rw [List.filterMap_cons, if_neg hemp]
          rw [hstep, wsupport_cons, ih, support_cons]
          congr 1
          by_cases hall : ∀ a ∈ S, a ∈ t
          · rw [if_pos, if_pos hall]
            intro a ha
            exact List.mem_filter.mpr ⟨hall a ha, hpa a ha⟩
          · rw [if_neg, if_neg hall]
            intro hall2
            exact hall (fun a ha => (List.mem_filter.mp (hall2 a ha)).1)
  have hshow : optPaths txs m = txs.filterMap (fun u =>
      if u.filter (fun i => decide (m ≤ globalFreq txs i)) = [] then none
      else some (u.filter (fun i => decide (m ≤ globalFreq txs i)), 1)) := rfl
  rw [hshow]
  exact key _ txs (fun a ha => decide_eq_true (hp a ha))

theorem optWF (txs : List (List ℕ)) (m : ℕ) (hm : 1 ≤ m)
    (hnd : ∀ t ∈ txs, t.Nodup)
    (hcap : ∀ t ∈ txs, ∀ i ∈ t, i < 1000) :
    MinerWF (optPaths txs m) (optHeaders txs m) [] m := by
  have hoc : ∀ h ∈ optHeaders txs m, ∃ t ∈ txs, h.item ∈ t := by
    intro h hmem
    obtain ⟨_, hfr, hpos, _⟩ := optHeaders_mem.mp hmem
    exact (globalFreq_pos_iff txs h.item).mp (hfr ▸ hpos)
  refine ⟨hm, optHeaders_item_nodup txs m, ?_, ?_, ?_, ?_, List.nodup_nil, ?_⟩
  · intro h hmem
    obtain ⟨t, ht, hit⟩ := hoc h hmem
    exact hcap t ht h.item hit
  · intro h hmem
    obtain ⟨_, hfr, hpos, hge⟩ := optHeaders_mem.mp hmem
    rw [hfr, wsupport_optPaths txs m [h.item] (by simp) ?_, ← globalFreq_eq_support txs hnd]
    intro a ha
    rw [List.mem_singleton] at ha
    rw [ha, ← hfr]
    exact hge
  · intro h hmem
    exact (optHeaders_mem.mp hmem).2.2.2
  · intro pc hpc
    unfold optPaths at hpc
    obtain ⟨t, ht, hsome⟩ := List.mem_filterMap.mp hpc
    dsimp only at hsome
    split at hsome
    · cases hsome
    · cases hsome
      exact (hnd t ht).filter _
  · intro h _ hc
    cases hc

theorem optCanon (txs : List (List ℕ)) (m : ℕ) (hnd : ∀ t ∈ txs, t.Nodup)
    (hcap : ∀ t ∈ txs, ∀ i ∈ t, i < 1000) (pr : List ℕ × ℕ) :
    canonMem (optPaths txs m) (optHeaders txs m) [] m pr ↔ canonOut txs m pr := by
  constructor
  · rintro ⟨S, hSnd, hSne, hSit, hSm, hSpr⟩
    have hSge : ∀ a ∈ S, m ≤ globalFreq txs a := by
      intro a ha
      obtain ⟨hd, hmem, hitem⟩ := List.mem_map.mp (hSit a ha)
      obtain ⟨_, hfr, _, hge⟩ := optHeaders_mem.mp hmem
      rw [hitem] at hfr
      exact hfr ▸ hge
    refine ⟨S, hSnd, hSne, ?_, ?_, ?_⟩
    · intro a ha
      obtain ⟨hd, hmem, hitem⟩ := List.mem_map.mp (hSit a ha)
      obtain ⟨_, hfr, hpos, _⟩ := optHeaders_mem.mp hmem
      rw [hitem] at hfr
      exact (globalFreq_pos_iff txs a).mp (hfr ▸ hpos)
    · rw [← wsupport_optPaths txs m S hSne hSge]
      exact hSm
    · rw [hSpr, wsupport_optPaths txs m S hSne hSge, List.nil_append]
  · rintro ⟨S, hSnd, hSne, hSoc, hSm, hSpr⟩
    have hSge : ∀ a ∈ S, m ≤ globalFreq txs a := by
      intro a ha
      rw [globalFreq_eq_support txs hnd]
      refine le_trans hSm (support_anti txs ?_)
      intro b hb
      rw [List.mem_singleton] at hb
      rw [hb]
      exact ha
    refine ⟨S, hSnd, hSne, ?_, ?_, ?_⟩
    · intro a ha
      have hpos : 1 ≤ globalFreq txs a := (globalFreq_pos_iff txs a).mpr (hSoc a ha)
      have hle : a ≤ maxId txs := by
        obtain ⟨t, ht, hat⟩ := hSoc a ha
        exact le_maxId ht hat
      have hmem : (⟨a, globalFreq txs a⟩ : Hdr) ∈ optHeaders txs m :=
        optHeaders_mem.mpr ⟨hle, rfl, hpos, hSge a ha⟩
      exact List.mem_map_of_mem Hdr.item hmem
    · rw [wsupport_optPaths txs m S hSne hSge]
      exact hSm
    · rw [hSpr, wsupport_optPaths txs m S hSne hSge, List.nil_append]

theorem support_optTxs (lines : List (List ℕ)) (S : List ℕ) (hne : ¬ S = []) :
    support (optTxs lines) S = support lines S := by
  unfold optTxs
  induction lines with
  | nil => rfl
  | cons t lines ih =>
      rw [List.filter_cons, support_cons]
      by_cases hemp : t = []
      · rw [if_neg (by simp [hemp]), ih, if_neg]
        · omega
        · intro hall
          obtain ⟨a, ha⟩ := List.exists_mem_of_ne_nil S hne
          rw [hemp] at hall
          cases hall a ha
      · rw [if_pos (by simp [hemp]), support_cons, ih]

theorem canonOut_optTxs (lines : List (List ℕ)) (m : ℕ) (pr : List ℕ × ℕ) :
    canonOut (optTxs lines) m pr ↔ canonOut lines m pr := by
  have hoc : ∀ a, (∃ t ∈ optTxs lines, a ∈ t) ↔ (∃ t ∈ lines, a ∈ t) := by
    intro a
    constructor
    · rintro ⟨t, ht, hat⟩
      exact ⟨t, (List.mem_filter.mp ht).1, hat⟩
    · rintro ⟨t, ht, hat⟩
      refine ⟨t, List.mem_filter.mpr ⟨ht, ?_⟩, hat⟩
      simp only [decide_eq_true_eq]
      intro hc
      rw [hc] at hat
      cases hat
  constructor
  · rintro ⟨S, hSnd, hSne, hSoc, hSm, hSpr⟩
    exact ⟨S, hSnd, hSne, fun a ha => (hoc a).mp (hSoc a ha),
      by rw [← support_optTxs lines S hSne]; exact hSm,
      by rw [hSpr, support_optTxs lines S hSne]⟩
  · rintro ⟨S, hSnd, hSne, hSoc, hSm, hSpr⟩
    exact ⟨S, hSnd, hSne, fun a ha => (hoc a).mpr (hSoc a ha),
      by rw [support_optTxs lines S hSne]; exact hSm,
      by rw [hSpr, ← support_optTxs lines S hSne]⟩

/-- Full characterization of a terminating part_001 run on a duplicate free
database of small items: the emitted pairs are exactly the non empty frequent
itemsets at their exact supports (possibly with repetition). -/
theorem optRun_chr (lines : List (List ℕ)) (m fuel : ℕ) (out : List (List ℕ × ℕ))
    (hm : 1 ≤ m) (hnd : ∀ t ∈ lines, t.Nodup)
    (hcap : ∀ t ∈ lines, ∀ i ∈ t, i < 1000)
    (hrun : optRun fuel lines m = some out) :
    ∀ pr, pr ∈ out ↔ canonOut lines m pr := by
  have hnd2 : ∀ t ∈ optTxs lines, t.Nodup :=
    fun t ht => hnd t (List.mem_filter.mp ht).1
  have hcap2 : ∀ t ∈ optTxs lines, ∀ i ∈ t, i < 1000 :=
    fun t ht => hcap t (List.mem_filter.mp ht).1
  have wf := optWF (optTxs lines) m hm hnd2 hcap2
  unfold optRun optTree at hrun
  have hiff := FP_Growth_opt_chr fuel _ _ _ _ _ wf hrun
  intro pr
  rw [hiff pr, slices_iff_canon _ _ _ _ wf,
    optCanon (optTxs lines) m hnd2 hcap2, canonOut_optTxs]

theorem filterMap_ext_fun {f g : ℕ → Option Hdr} (h : ∀ a, f a = g a)
    (l : List ℕ) : l.filterMap f = l.filterMap g := by
  induction l with
  | nil => rfl
  | cons a l ih => rw [List.filterMap_cons, List.filterMap_cons, h a, ih]

theorem condCountM_loop (k a : ℕ) :
    condCountM [([], k), ([1], 1)] a = condCountM [([], 0), ([1], 1)] a := by
  simp [condCountM]

theorem condHdrs_loop (k : ℕ) : condHdrs 1 [([], k), ([1], 1)] = [⟨1, 1⟩] := by
  have h1 : condHdrs 1 [([], k), ([1], 1)] = condHdrs 1 [([], 0), ([1], 1)] := by
    unfold condHdrs
    exact filterMap_ext_fun (fun a => by rw [condCountM_loop k a]) _
  rw [h1]
  decide

theorem collect_loop (k : ℕ) :
    collect 1 (Forest.node 1 k (Forest.node 1 1 Forest.nil Forest.nil) Forest.nil) =
      [([], k), ([1], 1)] := by
  simp [collect]

theorem tree_loop (k : ℕ) :
    construct_tree [([1], k), ([1, 1], 1)] [⟨1, 1⟩] =
      Forest.node 1 (k + 1) (Forest.node 1 1 Forest.nil Forest.nil) Forest.nil := by
  simp [construct_tree, sortFilter, headerMap, List.filterMap, List.insertionSort,
    List.orderedInsert, insertPath, hasItem, updChild, mkChain, appendChild]

/-- The self reproducing loop of Hamm.cpp on a transaction holding a
duplicated item: every scope for item 1 rebuilds a conditional tree of the
same shape with a larger root count, so no amount of fuel suffices. -/
theorem basic_loop (fuel : ℕ) :
    ∀ k pref f, FP_Growth_basic fuel
      (Forest.node 1 (k + 1) (Forest.node 1 1 Forest.nil Forest.nil) Forest.nil)
      [⟨1, f⟩] pref 1 = none := by
  induction fuel with
  | zero =>
      intro k pref f
      rfl
  | succ fuel ih =>
      intro k pref f
      rw [FP_Growth_basic_succ]
      have hstep : basicStep fuel
          (Forest.node 1 (k + 1) (Forest.node 1 1 Forest.nil Forest.nil) Forest.nil)
          pref 1 ⟨1, f⟩ = none := by
        unfold basicStep
        simp only [collect_loop (k + 1), condHdrs_loop (k + 1)]
        rw [if_neg (by simp)]
        simp only [List.map_cons, List.map_nil, List.reverse_nil, List.reverse_cons,
          List.nil_append, List.insertionSort]
        rw [show List.orderedInsert hdrLe ⟨1, 1⟩ [] = [⟨1, 1⟩] from rfl]
        rw [show ([1] ++ [1] : List ℕ) = [1, 1] from rfl]
        rw [tree_loop (k + 1)]
        rw [ih (k + 1) _ 1]
        rfl
      rw [List.map_cons, List.map_nil, hstep]
      rfl

theorem basicTree_dup : basicTree [[1, 1]] 1 =
    Forest.node 1 1 (Forest.node 1 1 Forest.nil Forest.nil) Forest.nil := by decide

theorem basicHeaders_dup : basicHeaders [[1, 1]] 1 = [⟨1, 2⟩] := by decide

theorem basicRun_nonterm (fuel : ℕ) : basicRun fuel [[1, 1]] 1 = none := by
  unfold basicRun
  rw [basicTree_dup, basicHeaders_dup]
  exact basic_loop fuel 0 [] 2

theorem int_log_eval {r : ℚ} {z : ℤ} (hr : 0 < r) (h1 : (2 : ℚ) ^ z ≤ r)
    (h2 : r < (2 : ℚ) ^ (z + 1)) : Int.log 2 r = z := by
  have ha := (Int.zpow_le_iff_le_log (b := 2) (by norm_num) hr).mp (by exact_mod_cast h1)
  have hb := (Int.lt_zpow_iff_log_lt (b := 2) (by norm_num) hr).mp (by exact_mod_cast h2)
  omega

theorem rne_eval_up {y : ℚ} {n : ℤ} (h1 : ⌊y⌋ = n) (h2 : 1 / 2 < y - (n : ℚ)) :
    rne y = n + 1 := by
  show (if y - (⌊y⌋ : ℚ) < 1 / 2 then ⌊y⌋
    else if 1 / 2 < y - (⌊y⌋ : ℚ) then ⌊y⌋ + 1
    else if ⌊y⌋ % 2 = 0 then ⌊y⌋ else ⌊y⌋ + 1) = n + 1
  rw [h1, if_neg (by linarith), if_pos h2]

theorem log_r03 : Int.log 2 (3 / 10 : ℚ) = -2 :=
  int_log_eval (by norm_num) (by norm_num) (by norm_num)

theorem f32round_r03 : f32round (3 / 10 : ℚ) = 5033165 / 2 ^ 24 := by
  unfold f32round
  rw [if_neg (by norm_num)]
  show ((rne ((3 / 10 : ℚ) / pow2 (Int.log 2 (3 / 10 : ℚ) - 23)) : ℚ)) *
    pow2 (Int.log 2 (3 / 10 : ℚ) - 23) = 5033165 / 2 ^ 24
  rw [log_r03, show (-2 - 23 : ℤ) = -25 from by norm_num,
    show pow2 (-25) = 1 / 2 ^ 25 from by
      unfold pow2
      rw [if_neg (by norm_num), show Int.toNat (-(-25)) = 25 from rfl],
    show (3 / 10 : ℚ) / (1 / 2 ^ 25) = 50331648 / 5 from by norm_num,
    rne_eval_up (show ⌊(50331648 / 5 : ℚ)⌋ = 10066329 from by
      rw [Int.floor_eq_iff]
      constructor <;> norm_num) (by norm_num)]
  norm_num

theorem log_prod : Int.log 2 ((5033165 / 2 ^ 24 : ℚ) * 50) = 3 :=
  int_log_eval (by norm_num) (by norm_num) (by norm_num)

theorem f32round_prod : f32round ((5033165 / 2 ^ 24 : ℚ) * 50) = 15728641 / 2 ^ 20 := by
  unfold f32round
  rw [if_neg (by norm_num)]
  show ((rne (((5033165 / 2 ^ 24 : ℚ) * 50) /
      pow2 (Int.log 2 ((5033165 / 2 ^ 24 : ℚ) * 50) - 23)) : ℚ)) *
    pow2 (Int.log 2 ((5033165 / 2 ^ 24 : ℚ) * 50) - 23) = 15728641 / 2 ^ 20
  rw [log_prod, show (3 - 23 : ℤ) = -20 from by norm_num,
    show pow2 (-20) = 1 / 2 ^ 20 from by
      unfold pow2
      rw [if_neg (by norm_num), show Int.toNat (-(-20)) = 20 from rfl],
    show ((5033165 / 2 ^ 24 : ℚ) * 50) / (1 / 2 ^ 20) = 125829125 / 8 from by norm_num,
    rne_eval_up (show ⌊(125829125 / 8 : ℚ)⌋ = 15728640 from by
      rw [Int.floor_eq_iff]
      constructor <;> norm_num) (by norm_num)]
  norm_num

theorem minSupCode_eval : minSupCode (3 / 10) 50 = 16 := by
  unfold minSupCode
  rw [f32round_r03, show ((50 : ℕ) : ℚ) = 50 from by norm_num, f32round_prod,
    Int.ceil_eq_iff]
  constructor <;> norm_num

theorem minSupExact_eval : minSupExact (3 / 10) 50 = 15 := by
  unfold minSupExact
  rw [show ((50 : ℕ) : ℚ) = 50 from by norm_num, Int.ceil_eq_iff]
  constructor <;> norm_num

theorem support_perm (db : List (List ℕ)) {S1 S2 : List ℕ} (h : S1.Perm S2) :
    support db S1 = support db S2 :=
  le_antisymm (support_anti db (fun a ha => h.mem_iff.mpr ha))
    (support_anti db (fun a ha => h.mem_iff.mp ha))

/-- C1: soundness of the miner in both variants.  On a database of duplicate
free transactions over items below the array capacity and a positive
threshold, every pair emitted by a terminating run carries as its count the
exact number of transactions containing every item of the pattern, and that
count reaches the threshold. -/
theorem claim_C1 (lines : List (List ℕ)) (m fuel : ℕ) (out : List (List ℕ × ℕ))
    (hm : 1 ≤ m) (hnd : ∀ t ∈ lines, t.Nodup)
    (hcap : ∀ t ∈ lines, ∀ i ∈ t, i < 1000)
    (hrun : basicRun fuel lines m = some out ∨ optRun fuel lines m = some out) :
    ∀ pr ∈ out, pr.2 = support lines pr.1 ∧ m ≤ pr.2 := by
  have hco : ∀ pr ∈ out, canonOut lines m pr := by
    rcases hrun with hrun | hrun
    · intro pr hpr
      exact ((basicRun_chr lines m fuel out hm hnd hcap hrun).1 pr).mp hpr
    · intro pr hpr
      exact (optRun_chr lines m fuel out hm hnd hcap hrun pr).mp hpr
  intro pr hpr
  obtain ⟨S, hSnd, hSne, hSoc, hSm, hSpr⟩ := hco pr hpr
  rw [hSpr]
  exact ⟨(support_perm lines (sortN_perm S)).symm, hSm⟩

theorem claim_C1_witness :
    ((([1, 2] : List ℕ), 1)).2 = support [[2, 1], [2]] ((([1, 2] : List ℕ), 1)).1 ∧
      1 ≤ ((([1, 2] : List ℕ), 1)).2 :=
  claim_C1 [[2, 1], [2]] 1 6 [([1], 1), ([1, 2], 1), ([2], 2)]
    (by decide) (by decide) (by decide) (Or.inl (by decide)) ([1, 2], 1) (by decide)

/-- C2: the part_001 miner violates uniqueness of the output: on the single
transaction 1 with threshold 1 it emits the pair for the itemset holding
item 1 twice, because the linear path enumerator re-emits the base pattern
already written before it was invoked. -/
theorem claim_C2 : optRun 5 [[1]] 1 = some [([1], 1), ([1], 1)] ∧
    ¬ (([([1], 1), ([1], 1)] : List (List ℕ × ℕ)).map Prod.fst).Nodup :=
  ⟨by decide, by decide⟩

/-- C3: linear path equivalence.  On a database of duplicate free
transactions over items below the array capacity, terminating runs of the
Hamm.cpp recursion (no enumerator) and of the part_001 recursion (with the
enumerator) emit the same set of pairs. -/
theorem claim_C3 (lines : List (List ℕ)) (m fuel1 fuel2 : ℕ)
    (out1 out2 : List (List ℕ × ℕ)) (hm : 1 ≤ m)
    (hnd : ∀ t ∈ lines, t.Nodup) (hcap : ∀ t ∈ lines, ∀ i ∈ t, i < 1000)
    (h1 : basicRun fuel1 lines m = some out1)
    (h2 : optRun fuel2 lines m = some out2) :
    ∀ pr, pr ∈ out1 ↔ pr ∈ out2 := by
  intro pr
  rw [(basicRun_chr lines m fuel1 out1 hm hnd hcap h1).1 pr,
    optRun_chr lines m fuel2 out2 hm hnd hcap h2 pr]

theorem claim_C3_witness :
    (([2] : List ℕ), 2) ∈ [(([1] : List ℕ), 1), ([1, 2], 1), ([2], 2)] ↔
      (([2] : List ℕ), 2) ∈ [(([1] : List ℕ), 1), ([1], 1), ([1, 2], 1), ([2], 2), ([2], 2)] :=
  claim_C3 [[2, 1], [2]] 1 6 6 [([1], 1), ([1, 2], 1), ([2], 2)]
    [([1], 1), ([1], 1), ([1, 2], 1), ([2], 2), ([2], 2)]
    (by decide) (by decide) (by decide) (by decide) (by decide) ([2], 2)

/-- C4: linear path exact support.  In a well formed scope, if the node link
chain of a header holds exactly one node, then for every subset S of the
ancestor items of that node the extension of the header item by S has scope
support exactly the header count. -/
theorem claim_C4 (E : WDB) (hdrs : List Hdr) (pref : List ℕ) (m : ℕ)
    (wf : MinerWF E hdrs pref m) (h : Hdr) (hmem : h ∈ hdrs) (e : List ℕ × ℕ)
    (hcol : collect h.item (construct_tree E hdrs) = [e]) (S : List ℕ)
    (hS : ∀ a ∈ S, a ∈ e.1) :
    is_single_node (construct_tree E hdrs) h.item ∧
      wsupport E (h.item :: S) = h.freq := by
  have he : e ∈ collect h.item (construct_tree E hdrs) := by
    rw [hcol]
    exact List.mem_singleton.mpr rfl
  have hepb := (collect_construct_entries E hdrs wf.hE h.item e he).2
  have hfe : h.freq = e.2 := by
    have h1 : wsupport (collect h.item (construct_tree E hdrs)) [] =
        wsupport E [h.item] := scope_bridge wf hmem [] (by intro a ha; cases ha)
    rw [hcol] at h1
    rw [wf.hfreq h hmem, ← h1, wsupport_singleton]
    simp
  refine ⟨by rw [is_single_node, hcol]; rfl, ?_⟩
  rw [← scope_bridge wf hmem S (fun a ha => hepb a (hS a ha)), hcol,
    wsupport_singleton, if_pos hS, hfe]

theorem claim_C4_witness :
    is_single_node (construct_tree ([[1, 2]].map (fun t => (t, 1)))
        (basicHeaders [[1, 2]] 1)) 2 ∧
      wsupport ([[1, 2]].map (fun t => (t, 1))) [2, 1] = 1 :=
  claim_C4 ([[1, 2]].map (fun t => (t, 1))) (basicHeaders [[1, 2]] 1) [] 1
    (basicWF [[1, 2]] 1 (by decide) (by decide)) ⟨2, 1⟩ (by decide)
    ([1], 1) (by decide) [1] (by decide)

/-- C5: the linear path enumerator does not skip the empty subset: on the
ancestor chain holding item 1 it emits both the bare pattern (the empty
subset, already written by the caller) and its extension, and consequently
the part_001 header step for a single node chain emits the base pair
twice. -/
theorem claim_C5 :
    hamm_search_optimized [1] [2] 2 [5] 1 = [([5], 2), ([1, 5], 2)] ∧
      optStep 4 (Forest.node 1 1 Forest.nil Forest.nil) [] 1 ⟨1, 1⟩ =
        some [([1], 1), ([1], 1)] :=
  ⟨by decide, by decide⟩

/-- C6: the threshold actually used differs from the exact ceiling: for the
ratio three tenths over fifty transactions the binary32 computation of both
main functions yields sixteen while the exact ceiling of the product is
fifteen. -/
theorem claim_C6 : minSupCode (3 / 10) 50 = 16 ∧ minSupExact (3 / 10) 50 = 15 :=
  ⟨minSupCode_eval, minSupExact_eval⟩

/-- C7: an item at or beyond the capacity of the per item arrays is not
rejected: the part_001 run on two transactions holding item 1200 completes
normally but omits the frequent itemset of items 5 and 1200, whose support
reaches the threshold. -/
theorem claim_C7 :
    optRun 6 [[1200, 5], [1200]] 1 = some [([5], 1), ([5], 1), ([1200], 2)] ∧
      1 ≤ support [[1200, 5], [1200]] [5, 1200] ∧
      ∀ pr ∈ [(([5] : List ℕ), 1), ([5], 1), ([1200], 2)], ¬ pr.1 = [5, 1200] :=
  ⟨by decide, by decide, by decide⟩

/-- C8: transactions are not treated as sets: duplicating an item inside one
line changes the output.  With threshold two, the line 1 1 makes the miner
emit the itemset of item 1 with count two, while the same item set written
as the line 1 yields an empty output. -/
theorem claim_C8 : basicRun 6 [[1, 1], [2]] 2 = some [([1], 2)] ∧
    basicRun 6 [[1], [2]] 2 = some [] :=
  ⟨by decide, by decide⟩

/-- C9: part_001 skips blank lines, but Hamm.cpp counts a blank line as a
transaction, so the blank line raises the transaction count: at full ratio
the threshold becomes two and the frequent item of the only non blank line
is lost, while without the blank line it is emitted. -/
theorem claim_C9 : optTxs [[1], []] = [[1]] ∧
    minSupExact 1 2 = 2 ∧ minSupExact 1 1 = 1 ∧
    basicRun 5 [[1], []] 2 = some [] ∧ basicRun 5 [[1]] 1 = some [([1], 1)] := by
  refine ⟨rfl, ?_, ?_, by decide, by decide⟩
  · unfold minSupExact
    rw [Int.ceil_eq_iff]
    constructor <;> norm_num
  · unfold minSupExact
    rw [Int.ceil_eq_iff]
    constructor <;> norm_num

/-- C10: the Hamm.cpp recursion does not terminate on the single line 1 1
with threshold one: the scope of item 1 rebuilds a conditional tree of the
same shape forever, so no recursion depth bound suffices. -/
theorem claim_C10 : ∀ fuel : ℕ, basicRun fuel [[1, 1]] 1 = none :=
  basicRun_nonterm

end Hamm
